import Mathlib

/-!
# LinearAlgebraLib.Matrix — a shallow embedding of `matrix/matrix.h`

`Matrix<T, M, N>` owns one heap-allocated `std::array<std::array<T, N>, M>`
(`m_matrix`) and a reference to it (`m_elem`).  The embedding keeps the grid as
a value: a function from the `M` row indices to rows, each row a function from
the `N` column indices to elements.  The element type `T` stays a parameter, as
in the template; every operation asks only for the arithmetic it uses.

Conventions
* `std::array::at` is the bounds-checked access: it yields the element or
  throws `std::out_of_range`; throwing is `Except.error Fault.out_of_range`.
* the unchecked `a[i]` is only ever applied to a loop counter, below the bound
  of its own loop; the loops run over `List.finRange n`, the counters
  `0, 1, …, n-1` together with the loop guard `i < n`.
* a `T&` returned by the non-const `operator[]` is the pair of coordinates it
  designates; reading and writing through it are `Matrix.load` / `Matrix.store`.
-/

namespace LinearAlgebraLib

/-- The exception the bounds-checked accessors throw (`std::out_of_range`). -/
inductive Fault where
  | out_of_range
  deriving DecidableEq

/-- The type `std::array<T, n>`: exactly `n` elements, at the indices `0 … n-1`. -/
abbrev StdArray (T : Type) (n : Nat) := Fin n → T

/-- Member `std::array::at(i)`: the element at `i`, or `std::out_of_range` when
`i` is not below the size. -/
def StdArray.at_ {T : Type} {n : Nat} (a : StdArray T n) (i : Nat) : Except Fault T :=
  if h : i < n then Except.ok (a ⟨i, h⟩) else Except.error Fault.out_of_range

/-- The `operator==` of `std::array`: element by element (`std::equal`), with the
elements compared by `eq`. -/
def StdArray.equal {T : Type} {n : Nat} (eq : T → T → Bool) (a b : StdArray T n) : Bool :=
  (List.finRange n).all fun i => eq (a i) (b i)

/-- Aggregate initialisation of a `std::array<std::array<T, N>, M>` from a flat
brace list (`{0, 1, 1, 2}`): C++ brace elision hands the values to the rows in
order, `N` to each, and value-initialises (zeroes) what the list does not
reach.  A list longer than `M * N` is ill-formed and gives `none`. -/
def StdArray.brace_init {T : Type} [Zero T] (M N : Nat) (values : List T) :
    Option (StdArray (StdArray T N) M) :=
  if values.length ≤ M * N then
    some fun row col => values.getD (row.val * N + col.val) 0
  else none

/-- The `class Matrix<T, M, N>`.  The structure constructor `Matrix.mk` is the
`explicit Matrix(const std::array<std::array<T, N>, M>& initializer)`
constructor, which copies `initializer` into the new storage. -/
structure Matrix (T : Type) (M N : Nat) where
  m_elem : StdArray (StdArray T N) M

namespace Matrix

variable {T : Type} {M N L : Nat}

/-- Default constructor `Matrix()`: `new std::array<…>({})`, every element
value-initialised to zero. -/
def create_zero [Zero T] : Matrix T M N := ⟨fun _ _ => 0⟩

/-- The constructor with array initializer, under the name the specification
gives it. -/
def create_from (initializer : StdArray (StdArray T N) M) : Matrix T M N := ⟨initializer⟩

/-- The assignment operator `Matrix& operator=(const std::array<std::array<T, M>, N>& initializer)
{ m_elem = initializer; return *this; }`.

The parameter is declared as `N` rows of `M` elements, whereas `m_elem` is `M`
rows of `N` elements (as in the constructor).  `std::array` assigns only from
its own type, so the body is well-formed exactly when `M = N`; for every other
shape instantiating the operator is a compile error, which is `none` here. -/
def assign (_self : Matrix T M N) (initializer : StdArray (StdArray T M) N) :
    Option (Matrix T M N) :=
  if h : M = N then
    some ⟨fun row col => initializer ⟨row.val, h ▸ row.isLt⟩ ⟨col.val, h ▸ col.isLt⟩⟩
  else none

/-- Method `size_t rows() const { return M; }`. -/
def rows (_self : Matrix T M N) : Nat := M

/-- Method `size_t columns() const { return N; }`. -/
def columns (_self : Matrix T M N) : Nat := N

/-- The non-const `T& operator[](const std::pair<size_t, size_t>& a)`:
`m_elem.at(a.first).at(a.second)`.  The row index is checked first, then the
column index; the result is the element designated, or `std::out_of_range`. -/
def ref (_self : Matrix T M N) (a : Nat × Nat) : Except Fault (Fin M × Fin N) :=
  if h₁ : a.1 < M then
    if h₂ : a.2 < N then Except.ok (⟨a.1, h₁⟩, ⟨a.2, h₂⟩)
    else Except.error Fault.out_of_range
  else Except.error Fault.out_of_range

/-- Reading through a reference obtained from `operator[]`. -/
def load (self : Matrix T M N) (r : Fin M × Fin N) : T := self.m_elem r.1 r.2

/-- Writing through a reference obtained from `operator[]`: only the element
it designates changes. -/
def store (self : Matrix T M N) (r : Fin M × Fin N) (v : T) : Matrix T M N :=
  ⟨Function.update self.m_elem r.1 (Function.update (self.m_elem r.1) r.2 v)⟩

/-- The const `const T& operator[](const std::pair<size_t, size_t>& a) const`,
`get(row, col)` of the specification: `m_elem.at(a.first).at(a.second)`. -/
def get (self : Matrix T M N) (a : Nat × Nat) : Except Fault T := do
  let row ← StdArray.at_ self.m_elem a.1
  StdArray.at_ row a.2

/-- The statement `m[{row, col}] = v`, `set(row, col, v)` of the specification.
`operator[]` runs first; when it throws, the assignment never happens and the
matrix is as it was.  The result is the outcome together with the matrix after
the statement. -/
def set (self : Matrix T M N) (a : Nat × Nat) (v : T) : Except Fault Unit × Matrix T M N :=
  match self.ref a with
  | Except.ok r => (Except.ok (), self.store r v)
  | Except.error e => (Except.error e, self)

/-- The `operator*`: the product is default-constructed (all zero) and every
`(*prod)[{row, col}]` accumulates `m_elem[row][i] * b[{i, col}]` for
`i = 0 … N-1`.  `b[{i, col}]` and `(*prod)[{row, col}]` are the checked
accessors and may throw; `m_elem[row][i]` is unchecked. -/
def multiply [Zero T] [Add T] [Mul T] (self : Matrix T M N) (b : Matrix T N L) :
    Except Fault (Matrix T M L) :=
  (List.finRange M).foldlM (fun prod row =>
    (List.finRange L).foldlM (fun prod col =>
      (List.finRange N).foldlM (fun prod i => do
        let rhs := self.m_elem row i * (← b.get (i.val, col.val))
        let r ← prod.ref (row.val, col.val)
        pure (prod.store r (prod.load r + rhs))) prod) prod) create_zero

/-- Method `transpose()`: the result is default-constructed and
`(*transposed)[{col, row}] = m_elem[row][col]` runs for every `row < M`,
`col < N`. -/
def transpose [Zero T] (self : Matrix T M N) : Except Fault (Matrix T N M) :=
  (List.finRange M).foldlM (fun transposed row =>
    (List.finRange N).foldlM (fun transposed col => do
      let r ← transposed.ref (col.val, row.val)
      pure (transposed.store r (self.m_elem row col))) transposed) create_zero

end Matrix

/-! ## Floating-point element types

`operator==` for a floating-point `T` uses `std::fabs`, `std::fmax`, `-`, `*`,
`<=` and `std::numeric_limits<T>::epsilon()`.  None of them is code of this
library, so the comparison takes them as a parameter; `binary32` below is the
instance for `float`. -/

/-- The floating-point operations the tolerant comparison uses on `T`. -/
structure FloatingPoint (T : Type) where
  /-- The function `std::fabs`. -/
  fabs : T → T
  /-- The function `std::fmax`. -/
  fmax : T → T → T
  /-- The difference `x - y`. -/
  sub : T → T → T
  /-- The product `x * y`. -/
  mul : T → T → T
  /-- The comparison `x <= y`. -/
  le : T → T → Bool
  /-- The constant `std::numeric_limits<T>::epsilon()`. -/
  epsilon : T

/-- An IEEE 754 binary32 datum (`float`): a NaN, an infinity with its sign, or
the finite number `m * 2 ^ e`.  The sign of a zero is not kept: none of the
operations below tells the two zeros apart. -/
inductive Float32 where
  | nan
  | inf (negative : Bool)
  | finite (m : Int) (e : Int)
  deriving DecidableEq

namespace Float32

/-- The position of the leading bit of `n`, `⌊log₂ n⌋` (0 for `n = 0`); the
first argument bounds the number of halvings and is given as `n` itself. -/
def leading_bit : Nat → Nat → Nat
  | 0, _ => 0
  | fuel + 1, n => if n < 2 then 0 else leading_bit fuel (n / 2) + 1

/-- Round the exact number `m * 2 ^ e` to binary32, to nearest with ties to
even: 24 significant bits, last place never below `2 ^ (-149)`, and an
infinity once the rounded magnitude reaches `2 ^ 128`. -/
def round (m e : Int) : Float32 :=
  let n := m.natAbs
  if n = 0 then finite 0 0
  else
    let top : Int := e + leading_bit n n
    let q : Int := max (top - 23) (-149)
    let k : Nat :=
      if q ≤ e then n * 2 ^ (e - q).toNat
      else
        let s := (q - e).toNat
        let k₀ := n / 2 ^ s
        let rest := n % 2 ^ s
        let half := 2 ^ (s - 1)
        if half < rest ∨ (rest = half ∧ k₀ % 2 = 1) then k₀ + 1 else k₀
    if 2 ^ 128 * 2 ^ 149 ≤ k * 2 ^ (q + 149).toNat then inf (decide (m < 0))
    else finite (if m < 0 then -(k : Int) else (k : Int)) q

/-- The function `std::fabs`: the sign is dropped, a NaN stays a NaN. -/
def fabs : Float32 → Float32
  | nan => nan
  | inf _ => inf false
  | finite m e => finite |m| e

/-- The comparison `x <= y`: false as soon as one side is a NaN. -/
def le : Float32 → Float32 → Bool
  | nan, _ => false
  | _, nan => false
  | inf negative, inf negative' => negative || !negative'
  | inf negative, finite _ _ => negative
  | finite _ _, inf negative => !negative
  | finite m e, finite m' e' =>
    decide (m * 2 ^ (e - min e e').toNat ≤ m' * 2 ^ (e' - min e e').toNat)

/-- The function `std::fmax`: the larger argument; a NaN argument is treated as missing, so
the other one is returned. -/
def fmax : Float32 → Float32 → Float32
  | nan, y => y
  | x, nan => x
  | x, y => if le x y then y else x

/-- The difference `x - y`, correctly rounded; `inf - inf` is a NaN. -/
def sub : Float32 → Float32 → Float32
  | nan, _ => nan
  | _, nan => nan
  | inf negative, inf negative' => if negative = negative' then nan else inf negative
  | inf negative, finite _ _ => inf negative
  | finite _ _, inf negative => inf (!negative)
  | finite m e, finite m' e' =>
    round (m * 2 ^ (e - min e e').toNat - m' * 2 ^ (e' - min e e').toNat) (min e e')

/-- The product `x * y`, correctly rounded; `inf * 0` is a NaN. -/
def mul : Float32 → Float32 → Float32
  | nan, _ => nan
  | _, nan => nan
  | inf negative, inf negative' => inf (negative != negative')
  | inf negative, finite m _ => if m = 0 then nan else inf (negative != decide (m < 0))
  | finite m _, inf negative => if m = 0 then nan else inf (decide (m < 0) != negative)
  | finite m e, finite m' e' => round (m * m') (e + e')

/-- The constant `std::numeric_limits<float>::epsilon()`, `2 ^ (-23)`. -/
def epsilon : Float32 := finite 1 (-23)

/-- Value-initialisation of a `float` gives zero. -/
instance : Zero Float32 := ⟨finite 0 0⟩

/-- The sum `x + y`, correctly rounded; `inf + (-inf)` is a NaN. -/
def add : Float32 → Float32 → Float32
  | nan, _ => nan
  | _, nan => nan
  | inf negative, inf negative' => if negative = negative' then inf negative else nan
  | inf negative, finite _ _ => inf negative
  | finite _ _, inf negative => inf negative
  | finite m e, finite m' e' =>
    round (m * 2 ^ (e - min e e').toNat + m' * 2 ^ (e' - min e e').toNat) (min e e')

/-- The `+` of `float`, as `operator*` uses it in `+=`. -/
instance : Add Float32 := ⟨add⟩

/-- The `*` of `float`. -/
instance : Mul Float32 := ⟨mul⟩

/-- The value of a decimal literal with the suffix `f`, such as `0.1f` for
`n / d = 1 / 10`: the binary32 nearest to `n / d`, ties to even.  The quotient
is cut after 200 binary places, far below the last place of any binary32, and
the bit beneath records whether anything was cut off, so that rounding the cut
number rounds `n / d`. -/
def literal (n d : Nat) : Float32 :=
  round (2 * (n * 2 ^ 200 / d) + (if n * 2 ^ 200 % d = 0 then 0 else 1) : Nat) (-201)

/-- The value of a finite datum counted in units of `2 ^ (-149)`, the spacing of
the smallest binary32 numbers: every finite binary32 is a whole number of
them.  (A NaN or an infinity is given 0.) -/
def units : Float32 → Int
  | finite m e => m * 2 ^ (e + 149).toNat
  | _ => 0

/-- The datum is a finite binary32 number: a significand of at most 24 bits and
an exponent of the last place between -149 and 104. -/
def in_range : Float32 → Prop
  | finite m e => m.natAbs < 2 ^ 24 ∧ -149 ≤ e ∧ e ≤ 104
  | _ => False

/-- The exact inequality `|x - y| <= 2 ^ (-23) * max(|x|, |y|)` between two
finite numbers, both sides counted in units of `2 ^ (-149)`. -/
def within_tolerance (x y : Float32) : Prop :=
  |x.units - y.units| * 2 ^ 23 ≤ max |x.units| |y.units|

end Float32

/-- The operations of `float`. -/
def binary32 : FloatingPoint Float32 :=
  ⟨Float32.fabs, Float32.fmax, Float32.sub, Float32.mul, Float32.le, Float32.epsilon⟩

/-- Which `operator==` overload the element type selects:
`std::is_integral<T>` (elements compared with the built-in `==`) or
`std::is_floating_point<T>`. -/
inductive Category (T : Type) where
  | integral (eq : DecidableEq T)
  | floating_point (fp : FloatingPoint T)

namespace Matrix

variable {T : Type} {M N L : Nat}

/-- The test `operator==` makes on one pair of floating-point elements:
`fabs(x - y) <= epsilon * fmax(fabs(x), fabs(y))`. -/
def almost_equal (fp : FloatingPoint T) (x y : T) : Bool :=
  let epsilon_factor := fp.fmax (fp.fabs x) (fp.fabs y)
  fp.le (fp.fabs (fp.sub x y)) (fp.mul fp.epsilon epsilon_factor)

/-- The `operator==`.  For an integral `T`: `m_elem == b.m_elem`, the comparison of
`std::array`, rows and then elements.  For a floating-point `T`: the two loops
over `row` and `col`, which return false at the first pair that is not
`almost_equal` and true when there is none. -/
def equals (category : Category T) (self b : Matrix T M N) : Bool :=
  match category with
  | Category.integral _ =>
    StdArray.equal (StdArray.equal fun x y => decide (x = y)) self.m_elem b.m_elem
  | Category.floating_point fp =>
    (List.finRange M).all fun row =>
      (List.finRange N).all fun col =>
        almost_equal fp (self.m_elem row col) (b.m_elem row col)

/-- The `bool operator!=(const Matrix& b) const { return !(*this==b); }`. -/
def not_equals (category : Category T) (self b : Matrix T M N) : Bool :=
  !(equals category self b)

end Matrix

/-! ## The matrices of `matrix_test.cpp` -/

namespace MatrixTest

/-- The type `unsigned long`: 64 bits, arithmetic modulo `2 ^ 64`. -/
abbrev UnsignedLong := ZMod (2 ^ 64)

/-- The operand `Matrix<unsigned long, 2, 4> mul1({1, 4, 6, 10, 2, 7, 5, 3})` -/
def mul1 : Matrix UnsignedLong 2 4 := Matrix.create_from ![![1, 4, 6, 10], ![2, 7, 5, 3]]

/-- The operand `Matrix<unsigned long, 4, 3> mul2({1, 4, 6, 2, 7, 5, 9, 0, 11, 3, 1, 0})` -/
def mul2 : Matrix UnsignedLong 4 3 :=
  Matrix.create_from ![![1, 4, 6], ![2, 7, 5], ![9, 0, 11], ![3, 1, 0]]

/-- The product `Matrix<unsigned long, 2, 3> mul_expected({93, 42, 92, 70, 60, 102})` -/
def mul_expected : Matrix UnsignedLong 2 3 := Matrix.create_from ![![93, 42, 92], ![70, 60, 102]]

/-- The transpose `Matrix<unsigned long, 4, 2> mul_expected({1, 2, 4, 7, 6, 5, 10, 3})` of
`TestTranspose`. -/
def transposed_expected : Matrix UnsignedLong 4 2 :=
  Matrix.create_from ![![1, 2], ![4, 7], ![6, 5], ![10, 3]]

/-- The operand `Matrix<float, 2, 2> mf1({0.1f, 0.2f, 0.3f, 0.4f})` of `TestMultiply`. -/
def mf1 : Matrix Float32 2 2 :=
  Matrix.create_from ![![Float32.literal 1 10, Float32.literal 2 10],
    ![Float32.literal 3 10, Float32.literal 4 10]]

/-- The operand `Matrix<float, 2, 2> mf2({1.f, 2.f, 3.f, 4.f})` of `TestMultiply`. -/
def mf2 : Matrix Float32 2 2 :=
  Matrix.create_from ![![Float32.literal 1 1, Float32.literal 2 1],
    ![Float32.literal 3 1, Float32.literal 4 1]]

/-- The product `Matrix<float, 2, 2> mf_expected({0.7f, 1.0f, 1.5f, 2.2f})` that
`TestMultiply` expects. -/
def mf_expected : Matrix Float32 2 2 :=
  Matrix.create_from ![![Float32.literal 7 10, Float32.literal 10 10],
    ![Float32.literal 15 10, Float32.literal 22 10]]

/-- The matrix `Matrix<int, 2, 2> mi;` of `TestDefaultConstructor`. -/
def mi : Matrix Int 2 2 := Matrix.create_zero

/-- A 1x1 `float` matrix whose element is a NaN. -/
def nan_matrix : Matrix Float32 1 1 := Matrix.create_from ![![Float32.nan]]

/-- A 2x3 `int` matrix, `Matrix<int, 2, 3> m;`. -/
def m23 : Matrix Int 2 3 := Matrix.create_zero

/-- The argument of `m = {0, 1, 2, 1, 2, 3}` for a `Matrix<int, 2, 3>`: the
parameter of its `operator=` is a `std::array<std::array<int, 2>, 3>`. -/
def m23_initializer : StdArray (StdArray Int 2) 3 := ![![0, 1], ![2, 1], ![2, 3]]

end MatrixTest

end LinearAlgebraLib

/-!
# roman2int — a shallow embedding of `roman2int/roman2int.cpp`

A `std::string` is the list of its characters.  The nodes of a Roman number
tree live on the heap and are reached through pointers; here a tree is a value
and a pointer to one of its nodes is the path of map keys that leads to it from
the root (the empty path is the root object itself).  A null pointer is
`none`, and dereferencing it ends the computation with `none`.
-/

namespace Roman

/-- The `class ValueNode`, an internal or leaf node of a Roman number tree: its
own `m_value` and `m_roman_num`, and the `m_tree` it inherits from `RootNode`,
a `std::map<char, ValueNode *>` kept as the list of its entries. -/
inductive ValueNode where
  | mk (m_value : Int) (m_roman_num : List Char) (m_tree : List (Char × ValueNode))

/-- The type `ValueNodeMap`, `std::map<char, ValueNode *>`. -/
abbrev ValueNodeMap := List (Char × ValueNode)

/-- Member `m_value` of a `ValueNode`. -/
def ValueNode.m_value : ValueNode → Int
  | mk m_value _ _ => m_value

/-- Member `m_roman_num` of a `ValueNode`. -/
def ValueNode.m_roman_num : ValueNode → List Char
  | mk _ m_roman_num _ => m_roman_num

/-- Member `m_tree` of a `ValueNode`. -/
def ValueNode.m_tree : ValueNode → ValueNodeMap
  | mk _ _ m_tree => m_tree

/-- The static `RootNode::s_valid_numerals`. -/
def s_valid_numerals : List Char := ['M', 'D', 'C', 'L', 'X', 'V', 'I']

/-- The static `RootNode::isValidNumeral`:
`s_valid_numerals.find(r) != s_valid_numerals.end()`. -/
def isValidNumeral (r : Char) : Bool := s_valid_numerals.contains r

/-- The node a pointer designates in the tree whose root has the map `m_tree`:
what its `romanNumStr()` returns and its own `m_tree`.  The root returns
`s_null_str`, the empty string. -/
def deref (m_tree : ValueNodeMap) : List Char → Option (List Char × ValueNodeMap)
  | [] => some ([], m_tree)
  | c :: path =>
    match m_tree.lookup c with
    | none => none
    | some node =>
      match path with
      | [] => some (node.m_roman_num, node.m_tree)
      | _ :: _ => deref node.m_tree path

/-- The tree after `m_tree.insert(entry)` in the node a pointer designates. -/
def insert (m_tree : ValueNodeMap) : List Char → Char × ValueNode → ValueNodeMap
  | [], entry => m_tree ++ [entry]
  | c :: path, entry =>
    m_tree.map fun (key, node) =>
      if key = c then (key, ValueNode.mk node.m_value node.m_roman_num (insert node.m_tree path entry))
      else (key, node)

/-- Method `RootNode::get(char r)` called through the pointer `self`: a
pointer to the node for `r` among the children, or null. -/
def get (m_tree : ValueNodeMap) (self : List Char) (r : Char) : Option (List Char) := do
  let (_, children) ← deref m_tree self
  match children.lookup r with
  | some _ => some (self ++ [r])
  | none => none

/-- Method `RootNode::add(char r, int value)` called through the pointer
`self`: the tree afterwards and the pointer returned.  When `r` is not a valid
numeral or the node already has a child for `r`, nothing is added and the
pointer is null; otherwise a new `ValueNode(value, romanNumStr() + r)` is
inserted and the pointer designates it. -/
def add (m_tree : ValueNodeMap) (self : List Char) (r : Char) (value : Int) :
    Option (ValueNodeMap × Option (List Char)) := do
  let (roman_num_str, children) ← deref m_tree self
  if !isValidNumeral r || (children.lookup r).isSome then
    pure (m_tree, none)
  else
    let roman_num := roman_num_str ++ [r]
    pure (insert m_tree self (r, ValueNode.mk value roman_num []), some (self ++ [r]))

/-- Methods `RootNode::getValue` and `ValueNode::getValue` on the characters
left of `roman_str`, which both take by reference: the value returned and what
is left of the string afterwards.

`RootNode::getValue` returns 0 for the empty string, -1 when the first
character is not a valid numeral, 0 when it is one that `m_tree` has no entry
for, and otherwise what `ValueNode::getValue` of the entry returns.  That one
erases the first character, asks `RootNode::getValue` of its own `m_tree` for
`retval`, and returns -1 when `retval` is -1, `retval` when it is positive and
its own `m_value` otherwise. -/
def getValue (m_tree : ValueNodeMap) : List Char → Int × List Char
  | [] => (0, [])
  | c :: roman_str =>
    if !isValidNumeral c then (-1, c :: roman_str)
    else
      match m_tree.lookup c with
      | none => (0, c :: roman_str)
      | some node =>
        let (retval, roman_str) := getValue node.m_tree roman_str
        if retval = -1 then (-1, roman_str)
        else if retval > 0 then (retval, roman_str)
        else (node.m_value, roman_str)

/-- The state while `roman2int` builds one tree: the map of the root object
and the pointer the last call of `add` or `get` returned. -/
structure Build where
  m_tree : ValueNodeMap
  returned : Option (List Char)

/-- A declaration such as `RootNode thousands;`: the root has no children. -/
def Build.root : Option Build := some ⟨[], none⟩

/-- A call on the root object, `tree.add(r, value)`. -/
def Build.add (r : Char) (value : Int) (b : Build) : Option Build :=
  (Roman.add b.m_tree [] r value).map fun (m_tree, returned) => ⟨m_tree, returned⟩

/-- A call on the pointer just returned, `->add(r, value)`; the pointer is
dereferenced, so a null one ends the computation. -/
def Build.then_add (r : Char) (value : Int) (b : Build) : Option Build :=
  b.returned.bind fun self =>
    (Roman.add b.m_tree self r value).map fun (m_tree, returned) => ⟨m_tree, returned⟩

/-- A call on the root object, `tree.get(r)`. -/
def Build.get (r : Char) (b : Build) : Option Build :=
  some ⟨b.m_tree, Roman.get b.m_tree [] r⟩

/-- The tree `thousands` as `roman2int` builds it:
`thousands.add('M', 1000)->add('M', 2000)->add('M', 3000)`. -/
def thousands : Option ValueNodeMap :=
  (Build.root
    >>= Build.add 'M' 1000 >>= Build.then_add 'M' 2000 >>= Build.then_add 'M' 3000).map
    Build.m_tree

/-- The tree `hundreds` as `roman2int` builds it: C, CC, CCC, then CD under
`hundreds.get('C')`, then D, DC, DCC, DCCC, then CM under `hundreds.get('C')`. -/
def hundreds : Option ValueNodeMap :=
  (Build.root
    >>= Build.add 'C' 100 >>= Build.then_add 'C' 200 >>= Build.then_add 'C' 300
    >>= Build.get 'C' >>= Build.then_add 'D' 400
    >>= Build.add 'D' 500 >>= Build.then_add 'C' 600 >>= Build.then_add 'C' 700
      >>= Build.then_add 'C' 800
    >>= Build.get 'C' >>= Build.then_add 'M' 900).map
    Build.m_tree

/-- The tree `tens` as `roman2int` builds it: X, XX, XXX, then XL under
`tens.get('X')`, then L, LX, LXX, LXXX, then XC under `tens.get('X')`. -/
def tens : Option ValueNodeMap :=
  (Build.root
    >>= Build.add 'X' 10 >>= Build.then_add 'X' 20 >>= Build.then_add 'X' 30
    >>= Build.get 'X' >>= Build.then_add 'L' 40
    >>= Build.add 'L' 50 >>= Build.then_add 'X' 60 >>= Build.then_add 'X' 70
      >>= Build.then_add 'X' 80
    >>= Build.get 'X' >>= Build.then_add 'C' 90).map
    Build.m_tree

/-- The tree `ones` as `roman2int` builds it: I, II, III, IIII, then IV under
`ones.get('I')`, then V, VI, VII, VIII, then IX under `ones.get('I')`. -/
def ones : Option ValueNodeMap :=
  (Build.root
    >>= Build.add 'I' 1 >>= Build.then_add 'I' 2 >>= Build.then_add 'I' 3
      >>= Build.then_add 'I' 4
    >>= Build.get 'I' >>= Build.then_add 'V' 4
    >>= Build.add 'V' 5 >>= Build.then_add 'I' 6 >>= Build.then_add 'I' 7
      >>= Build.then_add 'I' 8
    >>= Build.get 'I' >>= Build.then_add 'X' 9).map
    Build.m_tree

/-- The function `int roman2int(string roman_str)`: the four trees are built,
each takes its part off the front of the string in turn, and the four values
are added up unless one of them is -1 or characters are left over, in which
case the result is -1.  The result is `none` only when building a tree
dereferences a null pointer, which never happens (`roman2int_sound`). -/
def roman2int (roman_str : List Char) : Option Int :=
  thousands.bind fun thousands =>
  hundreds.bind fun hundreds =>
  tens.bind fun tens =>
  ones.bind fun ones =>
    let (val1000s, roman_str) := getValue thousands roman_str
    if val1000s = -1 then some (-1)
    else
      let (val100s, roman_str) := getValue hundreds roman_str
      if val100s = -1 then some (-1)
      else
        let (val10s, roman_str) := getValue tens roman_str
        if val10s = -1 then some (-1)
        else
          let (val1s, roman_str) := getValue ones roman_str
          if val1s = -1 then some (-1)
          else if !roman_str.isEmpty then some (-1)
          else some (val1000s + val100s + val10s + val1s)

end Roman

/-! ## What the trees accept

The definitions below are not code of `roman2int.cpp`: they describe its trees
and the notation it is meant to read, for the statements about `roman2int`. -/

namespace Roman

/-- The strings that lead from the root of a tree to one of its nodes in at
most `depth` steps (the empty string leads to the root itself), each with the
value `getValue` returns when it stops at that node. -/
def paths : Nat → ValueNodeMap → List (List Char × Int)
  | 0, _ => [([], 0)]
  | depth + 1, m_tree =>
    ([], 0) :: m_tree.flatMap fun entry =>
      (paths depth entry.2.m_tree).map fun found =>
        (entry.1 :: found.1,
          if found.2 = -1 then -1 else if found.2 > 0 then found.2 else entry.2.m_value)

/-- No node of the tree lies more than `depth` steps below the root. -/
def depth_le : Nat → ValueNodeMap → Bool
  | 0, m_tree => m_tree.isEmpty
  | depth + 1, m_tree => m_tree.all fun entry => depth_le depth entry.2.m_tree

/-- The string is empty or begins with one of the listed numerals. -/
def starts_with (numerals : List Char) : List Char → Bool
  | [] => true
  | c :: _ => numerals.contains c

/-- The notations of the thousands, with their values: nothing, M, MM, MMM. -/
def thousands_table : List (List Char × Int) :=
  [("".toList, 0), ("M".toList, 1000), ("MM".toList, 2000), ("MMM".toList, 3000)]

/-- The notations of the hundreds, with their values. -/
def hundreds_table : List (List Char × Int) :=
  [("".toList, 0), ("C".toList, 100), ("CC".toList, 200), ("CCC".toList, 300),
    ("CD".toList, 400), ("D".toList, 500), ("DC".toList, 600), ("DCC".toList, 700),
    ("DCCC".toList, 800), ("CM".toList, 900)]

/-- The notations of the tens, with their values. -/
def tens_table : List (List Char × Int) :=
  [("".toList, 0), ("X".toList, 10), ("XX".toList, 20), ("XXX".toList, 30),
    ("XL".toList, 40), ("L".toList, 50), ("LX".toList, 60), ("LXX".toList, 70),
    ("LXXX".toList, 80), ("XC".toList, 90)]

/-- The notations of the ones, with their values; 4 is written IIII or IV. -/
def ones_table : List (List Char × Int) :=
  [("".toList, 0), ("I".toList, 1), ("II".toList, 2), ("III".toList, 3),
    ("IIII".toList, 4), ("IV".toList, 4), ("V".toList, 5), ("VI".toList, 6),
    ("VII".toList, 7), ("VIII".toList, 8), ("IX".toList, 9)]

/-- The string has valid notation with the value `v`: it is a notation of the
thousands, then one of the hundreds, one of the tens and one of the ones, and
`v` is the sum of their values. -/
def WellFormed (s : List Char) (v : Int) : Prop :=
  ∃ t ∈ thousands_table, ∃ h ∈ hundreds_table, ∃ x ∈ tens_table,
    ∃ o ∈ ones_table, s = t.1 ++ h.1 ++ x.1 ++ o.1 ∧ v = t.2 + h.2 + x.2 + o.2

/-- The standard Roman numeral of `n`, in subtractive notation: the thousands,
hundreds, tens and ones digits of `n` written in turn, 4 and 9 as IV and IX,
40 and 90 as XL and XC, 400 and 900 as CD and CM. -/
def int2roman (n : Nat) : List Char :=
  (["", "M", "MM", "MMM"].getD (n / 1000) "").toList ++
  (["", "C", "CC", "CCC", "CD", "D", "DC", "DCC", "DCCC", "CM"].getD (n / 100 % 10) "").toList ++
  (["", "X", "XX", "XXX", "XL", "L", "LX", "LXX", "LXXX", "XC"].getD (n / 10 % 10) "").toList ++
  (["", "I", "II", "III", "IV", "V", "VI", "VII", "VIII", "IX"].getD (n % 10) "").toList

end Roman

namespace LinearAlgebraLib
namespace Matrix

variable {T : Type} {M N L : Nat}

/-! ## The accessors on in-range coordinates -/

theorem ref_in_range (m : Matrix T M N) (row : Fin M) (col : Fin N) :
    m.ref (row.val, col.val) = Except.ok (row, col) := by
  simp [ref]

theorem get_in_range (m : Matrix T M N) (row : Fin M) (col : Fin N) :
    m.get (row.val, col.val) = Except.ok (m.m_elem row col) := by
  simp [get, StdArray.at_, bind, Except.bind]

theorem store_elem (m : Matrix T M N) (r : Fin M × Fin N) (v : T) (row : Fin M) (col : Fin N) :
    (m.store r v).m_elem row col = if row = r.1 ∧ col = r.2 then v else m.m_elem row col := by
  unfold store
  by_cases h₁ : row = r.1
  · subst h₁
    by_cases h₂ : col = r.2
    · subst h₂; simp
    · simp [h₂]
  · simp [h₁]

theorem ext_elem {a b : Matrix T M N} (h : ∀ row col, a.m_elem row col = b.m_elem row col) :
    a = b := by
  cases a; cases b
  congr
  funext row col
  exact h row col

/-! ## The loops of `operator*` -/

section multiply
variable [AddCommMonoid T] [Mul T]

theorem ok_bind {α β : Type} (x : α) (f : α → Except Fault β) :
    (Except.ok x >>= f) = f x := rfl

/-- One pass through the body of the innermost loop. -/
theorem multiply_body (a : Matrix T M N) (b : Matrix T N L) (row : Fin M) (col : Fin L)
    (i : Fin N) (prod : Matrix T M L) :
    (do
        let rhs := a.m_elem row i * (← b.get (i.val, col.val))
        let r ← prod.ref (row.val, col.val)
        pure (prod.store r (prod.load r + rhs)))
      = (Except.ok (prod.store (row, col) (prod.load (row, col) + a.m_elem row i * b.m_elem i col)) :
          Except Fault (Matrix T M L)) := by
  simp only [get_in_range, ref_in_range, bind, Except.bind, pure, Except.pure]

/-- The innermost loop, over any list of counters `i`: the element at
`(row, col)` grows by the listed products, every other element stays. -/
theorem multiply_inner (a : Matrix T M N) (b : Matrix T N L) (row : Fin M) (col : Fin L)
    (l : List (Fin N)) (prod : Matrix T M L) :
    l.foldlM (fun prod i => do
        let rhs := a.m_elem row i * (← b.get (i.val, col.val))
        let r ← prod.ref (row.val, col.val)
        pure (prod.store r (prod.load r + rhs))) prod
      = (Except.ok ⟨fun r c => if r = row ∧ c = col
            then prod.m_elem r c + (l.map fun i => a.m_elem row i * b.m_elem i col).sum
            else prod.m_elem r c⟩ : Except Fault (Matrix T M L)) := by
  induction l generalizing prod with
  | nil =>
    simp only [List.foldlM_nil, List.map_nil, List.sum_nil, add_zero, ite_self]
    rfl
  | cons i l ih =>
    rw [List.foldlM_cons, multiply_body, ok_bind, ih]
    congr 2
    funext r c
    simp only [store_elem, load, List.map_cons, List.sum_cons]
    split
    · rename_i h; rw [h.1, h.2, add_assoc]
    · rfl

/-- The loop over the columns of one row. -/
theorem multiply_row (a : Matrix T M N) (b : Matrix T N L) (row : Fin M)
    (l : List (Fin L)) (hl : l.Nodup) (prod : Matrix T M L) :
    l.foldlM (fun prod col =>
        (List.finRange N).foldlM (fun prod i => do
          let rhs := a.m_elem row i * (← b.get (i.val, col.val))
          let r ← prod.ref (row.val, col.val)
          pure (prod.store r (prod.load r + rhs))) prod) prod
      = (Except.ok ⟨fun r c => if r = row ∧ c ∈ l
            then prod.m_elem r c + ∑ i, a.m_elem row i * b.m_elem i c
            else prod.m_elem r c⟩ : Except Fault (Matrix T M L)) := by
  induction l generalizing prod with
  | nil => simp only [List.foldlM_nil, List.not_mem_nil, and_false, if_false]; rfl
  | cons col l ih =>
    rw [List.nodup_cons] at hl
    rw [List.foldlM_cons, multiply_inner, ok_bind, ih hl.2]
    congr 2
    funext r c
    simp only [List.mem_cons, Fin.sum_univ_def]
    by_cases hr : r = row
    · by_cases hc : c = col
      · subst hc
        simp [hr, hl.1]
      · simp [hr, hc]
    · simp [hr]

/-- The loop over the rows. -/
theorem multiply_rows (a : Matrix T M N) (b : Matrix T N L)
    (l : List (Fin M)) (hl : l.Nodup) (prod : Matrix T M L) :
    l.foldlM (fun prod row =>
      (List.finRange L).foldlM (fun prod col =>
        (List.finRange N).foldlM (fun prod i => do
          let rhs := a.m_elem row i * (← b.get (i.val, col.val))
          let r ← prod.ref (row.val, col.val)
          pure (prod.store r (prod.load r + rhs))) prod) prod) prod
      = (Except.ok ⟨fun r c => if r ∈ l
            then prod.m_elem r c + ∑ i, a.m_elem r i * b.m_elem i c
            else prod.m_elem r c⟩ : Except Fault (Matrix T M L)) := by
  induction l generalizing prod with
  | nil => simp only [List.foldlM_nil, List.not_mem_nil, if_false]; rfl
  | cons row l ih =>
    rw [List.nodup_cons] at hl
    rw [List.foldlM_cons, multiply_row _ _ _ _ (List.nodup_finRange L), ok_bind, ih hl.2]
    congr 2
    funext r c
    simp only [List.mem_cons, List.mem_finRange, and_true]
    by_cases hr : r = row
    · subst hr
      simp [hl.1]
    · simp [hr]

/-- The `operator*` never throws and returns the matrix of the row-by-column sums. -/
theorem multiply_eq (a : Matrix T M N) (b : Matrix T N L) :
    a.multiply b = Except.ok ⟨fun row col => ∑ i, a.m_elem row i * b.m_elem i col⟩ := by
  unfold multiply
  rw [multiply_rows a b _ (List.nodup_finRange M)]
  congr 2
  funext r c
  simp [create_zero]

end multiply

end Matrix
end LinearAlgebraLib

namespace LinearAlgebraLib
namespace Matrix

variable {T : Type} {M N L : Nat}

/-! ## The loops of `transpose` -/

section transpose

/-- One pass through the body of the inner loop. -/
theorem transpose_body (a : Matrix T M N) (row : Fin M) (col : Fin N) (transposed : Matrix T N M) :
    (do
        let r ← transposed.ref (col.val, row.val)
        pure (transposed.store r (a.m_elem row col)))
      = (Except.ok (transposed.store (col, row) (a.m_elem row col)) :
          Except Fault (Matrix T N M)) := by
  simp only [ref_in_range, bind, Except.bind, pure, Except.pure]

/-- The loop over the columns of one row of the operand: column `row` of the
result receives the listed elements of that row. -/
theorem transpose_row (a : Matrix T M N) (row : Fin M) (l : List (Fin N))
    (transposed : Matrix T N M) :
    l.foldlM (fun transposed col => do
        let r ← transposed.ref (col.val, row.val)
        pure (transposed.store r (a.m_elem row col))) transposed
      = (Except.ok ⟨fun r c => if c = row ∧ r ∈ l then a.m_elem row r
            else transposed.m_elem r c⟩ : Except Fault (Matrix T N M)) := by
  induction l generalizing transposed with
  | nil => simp only [List.foldlM_nil, List.not_mem_nil, and_false, if_false]; rfl
  | cons col l ih =>
    rw [List.foldlM_cons, transpose_body, ok_bind, ih]
    congr 2
    funext r c
    simp only [store_elem, List.mem_cons]
    by_cases hc : c = row
    · by_cases hr : r = col
      · subst hr; simp [hc]
      · simp [hc, hr]
    · simp [hc]

/-- The loop over the rows of the operand. -/
theorem transpose_rows (a : Matrix T M N) (l : List (Fin M)) (transposed : Matrix T N M) :
    l.foldlM (fun transposed row =>
      (List.finRange N).foldlM (fun transposed col => do
        let r ← transposed.ref (col.val, row.val)
        pure (transposed.store r (a.m_elem row col))) transposed) transposed
      = (Except.ok ⟨fun r c => if c ∈ l then a.m_elem c r
            else transposed.m_elem r c⟩ : Except Fault (Matrix T N M)) := by
  induction l generalizing transposed with
  | nil => simp only [List.foldlM_nil, List.not_mem_nil, if_false]; rfl
  | cons row l ih =>
    rw [List.foldlM_cons, transpose_row, ok_bind, ih]
    congr 2
    funext r c
    simp only [List.mem_cons, List.mem_finRange, and_true]
    by_cases hc : c = row
    · subst hc; simp
    · simp [hc]

/-- Method `transpose` never throws and returns the grid with the coordinates swapped. -/
theorem transpose_eq [Zero T] (a : Matrix T M N) :
    a.transpose = Except.ok ⟨fun col row => a.m_elem row col⟩ := by
  unfold transpose
  rw [transpose_rows]
  congr 2
  funext r c
  simp

end transpose

end Matrix
end LinearAlgebraLib

namespace LinearAlgebraLib
namespace Matrix

variable {T : Type} {M N L : Nat}

/-! ## `operator==` -/

/-- The integral `operator==` is true exactly when the grids agree everywhere. -/
theorem equals_integral_iff (inst : DecidableEq T) (a b : Matrix T M N) :
    a.equals (Category.integral inst) b = true ↔
      ∀ (row : Fin M) (col : Fin N), a.m_elem row col = b.m_elem row col := by
  simp [equals, StdArray.equal, List.all_eq_true]

/-- The floating-point `operator==` is true exactly when every pair of
elements passes `almost_equal`. -/
theorem equals_floating_point_iff (fp : FloatingPoint T) (a b : Matrix T M N) :
    a.equals (Category.floating_point fp) b = true ↔
      ∀ (row : Fin M) (col : Fin N),
        almost_equal fp (a.m_elem row col) (b.m_elem row col) = true := by
  simp [equals, List.all_eq_true]

/-- Transposing twice gives the operand back. -/
theorem transpose_transpose [Zero T] (a : Matrix T M N) :
    (a.transpose >>= fun t => t.transpose) = Except.ok a := by
  rw [transpose_eq, ok_bind, transpose_eq]

end Matrix
end LinearAlgebraLib

namespace LinearAlgebraLib
open Matrix MatrixTest

/-- C1. `multiply(A, B)` returns, for every shape and every element type whose
addition and multiplication form a semiring (the exact integers, the integers
modulo `2 ^ w`), the matrix whose element at each `(row, col)` with `row < M`
and `col < L` is the sum over `i < N` of `A[row][i] * B[i][col]`; the 2x4 by
4x3 product of the unit test is `[[93, 42, 92], [70, 60, 102]]`. -/
theorem multiply_is_sum_of_products :
    (∀ (T : Type) [Semiring T] (M N L : Nat) (A : Matrix T M N) (B : Matrix T N L),
      ∃ P, A.multiply B = Except.ok P ∧
        ∀ (row : Fin M) (col : Fin L),
          P.get (row.val, col.val) = Except.ok (∑ i : Fin N, A.m_elem row i * B.m_elem i col)) ∧
    (∀ (w M N L : Nat) (A : Matrix (ZMod (2 ^ w)) M N) (B : Matrix (ZMod (2 ^ w)) N L),
      ∃ P, A.multiply B = Except.ok P ∧
        ∀ (row : Fin M) (col : Fin L),
          P.get (row.val, col.val) = Except.ok (∑ i : Fin N, A.m_elem row i * B.m_elem i col)) ∧
    (∀ (M N L : Nat) (A : Matrix Int M N) (B : Matrix Int N L),
      ∃ P, A.multiply B = Except.ok P ∧
        ∀ (row : Fin M) (col : Fin L),
          P.get (row.val, col.val) = Except.ok (∑ i : Fin N, A.m_elem row i * B.m_elem i col)) ∧
    mul1.multiply mul2 = Except.ok mul_expected := by
  have general : ∀ (T : Type) [Semiring T] (M N L : Nat) (A : Matrix T M N) (B : Matrix T N L),
      ∃ P, A.multiply B = Except.ok P ∧
        ∀ (row : Fin M) (col : Fin L),
          P.get (row.val, col.val) = Except.ok (∑ i : Fin N, A.m_elem row i * B.m_elem i col) := by
    intro T _ M N L A B
    exact ⟨_, multiply_eq A B, fun row col => get_in_range _ row col⟩
  refine ⟨general, fun w => general _, general _, ?_⟩
  rw [multiply_eq]
  refine congrArg Except.ok (ext_elem fun row col => ?_)
  fin_cases row <;> fin_cases col <;> decide

end LinearAlgebraLib

namespace LinearAlgebraLib
open Matrix MatrixTest

/-- C2. `transpose(A)` returns, for every shape `(M, N)`, a matrix of shape
`(N, M)` whose element at `(col, row)` is `A`'s element at `(row, col)` for
every `row < M` and `col < N`; transposing `[[1,4,6,10],[2,7,5,3]]` gives
`[[1,2],[4,7],[6,5],[10,3]]`. -/
theorem transpose_swaps_coordinates :
    (∀ (T : Type) [Zero T] (M N : Nat) (A : Matrix T M N),
      ∃ R, A.transpose = Except.ok R ∧ R.rows = N ∧ R.columns = M ∧
        ∀ (row : Fin M) (col : Fin N),
          R.get (col.val, row.val) = A.get (row.val, col.val)) ∧
    mul1.transpose = Except.ok transposed_expected := by
  refine ⟨fun T _ M N A => ⟨_, transpose_eq A, rfl, rfl, fun row col => ?_⟩, ?_⟩
  · rw [get_in_range, get_in_range]
  · rw [transpose_eq]
    refine congrArg Except.ok (ext_elem fun row col => ?_)
    fin_cases row <;> fin_cases col <;> rfl

/-- C3. After `set(row, col, v)` at valid coordinates, `get(row, col)` returns
`v` and `get(r, c)` returns what it returned before at every other valid
`(r, c)`. -/
theorem get_after_set (T : Type) (M N : Nat) (A : Matrix T M N) (row : Fin M) (col : Fin N)
    (v : T) :
    (A.set (row.val, col.val) v).1 = Except.ok () ∧
    (A.set (row.val, col.val) v).2.get (row.val, col.val) = Except.ok v ∧
    ∀ (r : Fin M) (c : Fin N), (r, c) ≠ (row, col) →
      (A.set (row.val, col.val) v).2.get (r.val, c.val) = A.get (r.val, c.val) := by
  have hset : A.set (row.val, col.val) v = (Except.ok (), A.store (row, col) v) := by
    simp only [Matrix.set, ref_in_range]
  rw [hset]
  refine ⟨rfl, ?_, fun r c hne => ?_⟩
  · rw [get_in_range, store_elem]; simp
  · rw [get_in_range, get_in_range, store_elem, if_neg]
    rintro ⟨h₁, h₂⟩
    exact hne (Prod.ext h₁ h₂)

/-- C3 at the matrix of `TestDefaultConstructor`: after `mi[{1, 1}] = -100` the
element at `(1, 1)` is `-100` and the element at `(0, 1)` is still zero. -/
theorem get_after_set_witness :
    (mi.set (1, 1) (-100)).2.get (1, 1) = Except.ok (-100) ∧
    (mi.set (1, 1) (-100)).2.get (0, 1) = Except.ok 0 :=
  ⟨(get_after_set Int 2 2 mi 1 1 (-100)).2.1,
    ((get_after_set Int 2 2 mi 1 1 (-100)).2.2 0 1 (by decide)).trans rfl⟩

/-- C4. `get(row, col)` and `set(row, col, v)` throw `std::out_of_range` exactly
when `row >= Rows` or `col >= Cols`, and succeed exactly when both indices are
in range; a `set` that throws leaves the matrix as it was. -/
theorem out_of_range_iff (T : Type) (M N : Nat) (A : Matrix T M N) (row col : Nat) (v : T) :
    (A.get (row, col) = Except.error Fault.out_of_range ↔ M ≤ row ∨ N ≤ col) ∧
    ((A.set (row, col) v).1 = Except.error Fault.out_of_range ↔ M ≤ row ∨ N ≤ col) ∧
    ((∃ x, A.get (row, col) = Except.ok x) ↔ row < M ∧ col < N) ∧
    ((A.set (row, col) v).1 = Except.ok () ↔ row < M ∧ col < N) ∧
    ((A.set (row, col) v).1 = Except.error Fault.out_of_range → (A.set (row, col) v).2 = A) := by
  by_cases h₁ : row < M
  · by_cases h₂ : col < N
    · have hget := get_in_range A ⟨row, h₁⟩ ⟨col, h₂⟩
      have href := ref_in_range A ⟨row, h₁⟩ ⟨col, h₂⟩
      simp only at hget href
      simp [Matrix.set, hget, href, h₁, h₂]
    · simp [Matrix.set, Matrix.ref, Matrix.get, StdArray.at_, bind, Except.bind, h₁, h₂, Nat.le_of_not_lt h₂]
  · simp [Matrix.set, Matrix.ref, Matrix.get, StdArray.at_, bind, Except.bind, h₁, Nat.le_of_not_lt h₁]

/-- C4 at the indices of `TestOutOfRange` on a 2x3 matrix: row and column both
out of range, only the row, only the column, and neither. -/
theorem out_of_range_witness :
    m23.get (2, 3) = Except.error Fault.out_of_range ∧
    m23.get (2, 0) = Except.error Fault.out_of_range ∧
    m23.get (0, 3) = Except.error Fault.out_of_range ∧
    (m23.set (2, 3) 10).1 = Except.error Fault.out_of_range ∧
    (m23.set (2, 3) 10).2 = m23 ∧
    (m23.set (1, 2) 10).1 = Except.ok () :=
  ⟨(out_of_range_iff Int 2 3 m23 2 3 0).1.2 (by decide),
    (out_of_range_iff Int 2 3 m23 2 0 0).1.2 (by decide),
    (out_of_range_iff Int 2 3 m23 0 3 0).1.2 (by decide),
    (out_of_range_iff Int 2 3 m23 2 3 10).2.1.2 (by decide),
    (out_of_range_iff Int 2 3 m23 2 3 10).2.2.2.2
      ((out_of_range_iff Int 2 3 m23 2 3 10).2.1.2 (by decide)),
    (out_of_range_iff Int 2 3 m23 1 2 10).2.2.2.1.2 (by decide)⟩

end LinearAlgebraLib

namespace LinearAlgebraLib
open Matrix MatrixTest

/-- C5, as stated, fails: the 1x1 `float` matrix holding a NaN is returned
unchanged by two transpositions, and `operator==` says it differs from the
original (`fabs(NaN - NaN) <= epsilon * fmax(NaN, NaN)` is false). -/
theorem transpose_twice_nan_not_equal :
    ∃ R, (nan_matrix.transpose >>= fun t => t.transpose) = Except.ok R ∧
      (∀ (row : Fin 1) (col : Fin 1),
        R.get (row.val, col.val) = nan_matrix.get (row.val, col.val)) ∧
      R.equals (Category.floating_point binary32) nan_matrix = false :=
  ⟨nan_matrix, transpose_transpose nan_matrix, fun _ _ => rfl, by decide⟩

/-- C5, amended. For every shape and every matrix `A`, `transpose(transpose(A))`
has `A`'s shape and `A`'s element at every position; it compares equal to `A`
under the integral `operator==`, and under the floating-point `operator==`
exactly when every element of `A` passes the tolerance test against itself. -/
theorem transpose_twice (T : Type) [Zero T] (M N : Nat) (A : Matrix T M N) :
    ∃ R, (A.transpose >>= fun t => t.transpose) = Except.ok R ∧
      R.rows = A.rows ∧ R.columns = A.columns ∧
      (∀ (row : Fin M) (col : Fin N), R.get (row.val, col.val) = A.get (row.val, col.val)) ∧
      (∀ inst : DecidableEq T, R.equals (Category.integral inst) A = true) ∧
      (∀ fp : FloatingPoint T, R.equals (Category.floating_point fp) A = true ↔
        ∀ (row : Fin M) (col : Fin N),
          fp.le (fp.fabs (fp.sub (A.m_elem row col) (A.m_elem row col)))
            (fp.mul fp.epsilon
              (fp.fmax (fp.fabs (A.m_elem row col)) (fp.fabs (A.m_elem row col)))) = true) :=
  ⟨A, transpose_transpose A, rfl, rfl, fun _ _ => rfl,
    fun inst => (equals_integral_iff inst A A).2 fun _ _ => rfl,
    fun fp => equals_floating_point_iff fp A A⟩

/-- C6. For an integral element type, `A == B` is true exactly when `A` and `B`
hold the same element at every `(row, col)` with `row < Rows` and
`col < Cols`, and `A != B` is the negation of `A == B`. -/
theorem integral_equality_exact (T : Type) (inst : DecidableEq T) (M N : Nat)
    (A B : Matrix T M N) :
    (A.equals (Category.integral inst) B = true ↔
      ∀ (row : Fin M) (col : Fin N), A.get (row.val, col.val) = B.get (row.val, col.val)) ∧
    A.not_equals (Category.integral inst) B = !(A.equals (Category.integral inst) B) := by
  refine ⟨?_, rfl⟩
  rw [equals_integral_iff]
  constructor
  · intro h row col
    rw [get_in_range, get_in_range, h]
  · intro h row col
    have := h row col
    rw [get_in_range, get_in_range] at this
    exact Except.ok.inj this

/-- C7. Multiplication is associative: `(A * B) * C` and `A * (B * C)` are both
computed without a throw and are the same matrix, over every semiring of
elements, in particular the integers modulo `2 ^ w` and the exact integers. -/
theorem multiply_associative :
    (∀ (T : Type) [Semiring T] (M N L K : Nat)
        (A : Matrix T M N) (B : Matrix T N L) (C : Matrix T L K),
      ∃ P, (A.multiply B >>= fun AB => AB.multiply C) = Except.ok P ∧
        (B.multiply C >>= fun BC => A.multiply BC) = Except.ok P) ∧
    (∀ (w M N L K : Nat) (A : Matrix (ZMod (2 ^ w)) M N) (B : Matrix (ZMod (2 ^ w)) N L)
        (C : Matrix (ZMod (2 ^ w)) L K),
      ∃ P, (A.multiply B >>= fun AB => AB.multiply C) = Except.ok P ∧
        (B.multiply C >>= fun BC => A.multiply BC) = Except.ok P) ∧
    (∀ (M N L K : Nat) (A : Matrix Int M N) (B : Matrix Int N L) (C : Matrix Int L K),
      ∃ P, (A.multiply B >>= fun AB => AB.multiply C) = Except.ok P ∧
        (B.multiply C >>= fun BC => A.multiply BC) = Except.ok P) := by
  have general : ∀ (T : Type) [Semiring T] (M N L K : Nat)
      (A : Matrix T M N) (B : Matrix T N L) (C : Matrix T L K),
      ∃ P, (A.multiply B >>= fun AB => AB.multiply C) = Except.ok P ∧
        (B.multiply C >>= fun BC => A.multiply BC) = Except.ok P := by
    intro T _ M N L K A B C
    refine ⟨⟨fun row col => ∑ j, (∑ i, A.m_elem row i * B.m_elem i j) * C.m_elem j col⟩, ?_, ?_⟩
    · rw [multiply_eq, ok_bind, multiply_eq]
    · rw [multiply_eq, ok_bind, multiply_eq]
      refine congrArg Except.ok (ext_elem fun row col => ?_)
      simp only [Finset.sum_mul, Finset.mul_sum, mul_assoc]
      exact Finset.sum_comm
  exact ⟨general, fun w => general _, general _⟩

end LinearAlgebraLib

namespace LinearAlgebraLib
namespace Float32

/-! ## The rounding of binary32 -/

theorem leading_bit_le (fuel : Nat) : ∀ (n k : Nat), n < 2 ^ (k + 1) → leading_bit fuel n ≤ k := by
  induction fuel with
  | zero => intro n k _; simp [leading_bit]
  | succ fuel ih =>
    intro n k hn
    rw [leading_bit]
    split
    · exact Nat.zero_le _
    · rename_i h2
      cases k with
      | zero => omega
      | succ k =>
        have : n / 2 < 2 ^ (k + 1) := by
          rw [Nat.div_lt_iff_lt_mul (by norm_num)]
          rw [pow_succ] at hn
          exact hn
        have := ih (n / 2) k this
        omega

theorem leading_bit_spec (fuel : Nat) :
    ∀ n : Nat, 1 ≤ n → n ≤ fuel →
      2 ^ leading_bit fuel n ≤ n ∧ n < 2 ^ (leading_bit fuel n + 1) := by
  induction fuel with
  | zero => intro n h1 h2; omega
  | succ fuel ih =>
    intro n h1 h2
    rw [leading_bit]
    split
    · rename_i hlt
      have : n = 1 := by omega
      subst this
      norm_num
    · rename_i hge
      have hhalf := ih (n / 2) (by omega) (by omega)
      constructor
      · rw [pow_succ]
        have := Nat.div_mul_le_self n 2
        nlinarith [hhalf.1]
      · rw [pow_succ]
        have := Nat.lt_div_mul_add (a := n) (b := 2) (by norm_num)
        nlinarith [hhalf.2]

end Float32
end LinearAlgebraLib

namespace LinearAlgebraLib
namespace Float32

/-- The rounding written out: `k` is the significand kept at the last place `q`. -/
theorem round_eq (m e : Int) (hn : m.natAbs ≠ 0) (q : Int) (k : Nat)
    (hq : q = max (e + leading_bit m.natAbs m.natAbs - 23) (-149))
    (hk : k = if q ≤ e then m.natAbs * 2 ^ (e - q).toNat
      else if 2 ^ ((q - e).toNat - 1) < m.natAbs % 2 ^ (q - e).toNat ∨
          (m.natAbs % 2 ^ (q - e).toNat = 2 ^ ((q - e).toNat - 1) ∧
            m.natAbs / 2 ^ (q - e).toNat % 2 = 1)
        then m.natAbs / 2 ^ (q - e).toNat + 1 else m.natAbs / 2 ^ (q - e).toNat) :
    round m e = if 2 ^ 128 * 2 ^ 149 ≤ k * 2 ^ (q + 149).toNat then inf (decide (m < 0))
      else finite (if m < 0 then -(k : Int) else (k : Int)) q := by
  subst hq hk
  simp only [round, hn, if_false]

end Float32
end LinearAlgebraLib

namespace LinearAlgebraLib
namespace Float32

theorem two_pow_toNat_add {a b : Int} (ha : 0 ≤ a) (hb : 0 ≤ b) :
    (2 : Nat) ^ (a + b).toNat = 2 ^ a.toNat * 2 ^ b.toNat := by
  rw [← pow_add]
  congr 1
  omega

theorem natAbs_signed (m : Int) (c : Nat) :
    (if m < 0 then -((m.natAbs * c : Nat) : Int) else ((m.natAbs * c : Nat) : Int)) = m * c := by
  split
  · rename_i h
    push_cast
    rw [abs_of_neg h]
    ring
  · rename_i h
    push_cast
    rw [abs_of_nonneg (not_lt.mp h)]

/-- A number that fits the format is not changed by rounding. -/
theorem round_small (m e : Int) (hm : m.natAbs < 2 ^ 24) (he : -149 ≤ e) (he' : e ≤ 104) :
    ∃ k q, round m e = finite k q ∧ -149 ≤ q ∧
      k * 2 ^ (q + 149).toNat = m * 2 ^ (e + 149).toNat := by
  by_cases hn : m.natAbs = 0
  · refine ⟨0, 0, by simp [round, hn], by norm_num, ?_⟩
    have : m = 0 := by omega
    simp [this]
  · have hlb := leading_bit_le m.natAbs m.natAbs 23 hm
    have hq : max (e + (leading_bit m.natAbs m.natAbs : Int) - 23) (-149) ≤ e := by
      apply max_le <;> omega
    have hq' : -149 ≤ max (e + (leading_bit m.natAbs m.natAbs : Int) - 23) (-149) :=
      le_max_right _ _
    rw [round_eq m e hn _ _ rfl rfl]
    generalize max (e + (leading_bit m.natAbs m.natAbs : Int) - 23) (-149) = q at hq hq'
    simp only [hq, if_true]
    have hsplit : (2 : Nat) ^ (e + 149).toNat = 2 ^ (e - q).toNat * 2 ^ (q + 149).toNat := by
      rw [← two_pow_toNat_add (by omega) (by omega)]
      congr 2
      omega
    have hbound : m.natAbs * 2 ^ (e - q).toNat * 2 ^ (q + 149).toNat < 2 ^ 128 * 2 ^ 149 := by
      rw [mul_assoc, ← hsplit]
      have h1 : (2 : Nat) ^ (e + 149).toNat ≤ 2 ^ 253 :=
        Nat.pow_le_pow_right (by norm_num) (by omega)
      calc m.natAbs * 2 ^ (e + 149).toNat ≤ m.natAbs * 2 ^ 253 := Nat.mul_le_mul_left _ h1
        _ < 2 ^ 24 * 2 ^ 253 := Nat.mul_lt_mul_of_pos_right hm (by positivity)
        _ = 2 ^ 128 * 2 ^ 149 := by norm_num
    rw [if_neg (not_le.mpr hbound)]
    refine ⟨_, q, rfl, hq', ?_⟩
    have hsplit' := congrArg (Nat.cast : Nat → Int) hsplit
    push_cast at hsplit'
    rw [natAbs_signed, hsplit']
    push_cast
    ring

end Float32
end LinearAlgebraLib

namespace LinearAlgebraLib
namespace Float32

/-- A number of more than 24 significant bits rounds to an infinity or to a
number above half of it. -/
theorem round_big (m e : Int) (hm : 2 ^ 24 ≤ m.natAbs) (he : -149 ≤ e) :
    (∃ negative, round m e = inf negative) ∨
    ∃ k q, round m e = finite k q ∧ -149 ≤ q ∧
      (m.natAbs : Int) * 2 ^ (e + 149).toNat < 2 * |k| * 2 ^ (q + 149).toNat := by
  have hn : m.natAbs ≠ 0 := by
    have : 0 < 2 ^ 24 := by norm_num
    omega
  obtain ⟨hlo, hhi⟩ := leading_bit_spec m.natAbs m.natAbs (by omega) le_rfl
  have hlb : 24 ≤ leading_bit m.natAbs m.natAbs := by
    by_contra hcon
    have h1 : leading_bit m.natAbs m.natAbs + 1 ≤ 24 := by omega
    have h2 : (2 : Nat) ^ (leading_bit m.natAbs m.natAbs + 1) ≤ 2 ^ 24 :=
      Nat.pow_le_pow_right (by norm_num) h1
    omega
  rw [round_eq m e hn _ _ rfl rfl]
  generalize leading_bit m.natAbs m.natAbs = lb at hlo hhi hlb
  have hq : max (e + (lb : Int) - 23) (-149) = e + (lb : Int) - 23 := max_eq_left (by omega)
  rw [hq]
  have hnle : ¬ (e + (lb : Int) - 23 ≤ e) := by omega
  simp only [hnle, if_false]
  have hs : (e + (lb : Int) - 23 - e).toNat = lb - 23 := by omega
  rw [hs]
  generalize hk : (if 2 ^ (lb - 23 - 1) < m.natAbs % 2 ^ (lb - 23) ∨
      (m.natAbs % 2 ^ (lb - 23) = 2 ^ (lb - 23 - 1) ∧ m.natAbs / 2 ^ (lb - 23) % 2 = 1)
      then m.natAbs / 2 ^ (lb - 23) + 1 else m.natAbs / 2 ^ (lb - 23)) = k
  have hk0 : 2 ^ 23 ≤ m.natAbs / 2 ^ (lb - 23) := by
    rw [Nat.le_div_iff_mul_le (by positivity), ← pow_add]
    have : 23 + (lb - 23) = lb := by omega
    rw [this]
    exact hlo
  have hkge : 2 ^ 23 ≤ k := by
    rw [← hk]
    split <;> omega
  split
  · exact Or.inl ⟨_, rfl⟩
  · refine Or.inr ⟨_, _, rfl, by omega, ?_⟩
    have habs : |(if m < 0 then -(k : Int) else (k : Int))| = (k : Int) := by
      split
      · rw [abs_neg, abs_of_nonneg (by positivity)]
      · rw [abs_of_nonneg (by positivity)]
    rw [habs]
    have hexp : (e + (lb : Int) - 23 + 149).toNat = (e + 149).toNat + (lb - 23) := by omega
    rw [hexp, pow_add]
    have h1 : (m.natAbs : Int) < 2 ^ (lb + 1) := by exact_mod_cast hhi
    have h2 : (2 : Int) ^ (lb + 1) = 2 * 2 ^ 23 * 2 ^ (lb - 23) := by
      rw [mul_assoc, ← pow_add, ← pow_succ']
      congr 1
      omega
    have h3 : (2 : Int) ^ 23 ≤ (k : Int) := by exact_mod_cast hkge
    have hp1 : (0 : Int) < 2 ^ (e + 149).toNat := by positivity
    have hp2 : (0 : Int) < 2 ^ (lb - 23) := by positivity
    calc (m.natAbs : Int) * 2 ^ (e + 149).toNat
        < 2 ^ (lb + 1) * 2 ^ (e + 149).toNat := mul_lt_mul_of_pos_right h1 hp1
      _ = 2 * 2 ^ 23 * (2 ^ (e + 149).toNat * 2 ^ (lb - 23)) := by rw [h2]; ring
      _ ≤ 2 * (k : Int) * (2 ^ (e + 149).toNat * 2 ^ (lb - 23)) := by
          apply mul_le_mul_of_nonneg_right _ (by positivity)
          linarith

end Float32
end LinearAlgebraLib

namespace LinearAlgebraLib
namespace Float32

/-- The distance between a number and its nearest multiple, in the shape the
rounding produces it. -/
theorem near_algebra (a c rest k₀ k : Int) (hc : 0 ≤ c) (h0 : 0 ≤ rest) (hlt : rest < 2 * a)
    (hk : (k = k₀ ∧ rest ≤ a) ∨ (k = k₀ + 1 ∧ a ≤ rest)) :
    |k * (2 * a * c) - (2 * a * k₀ + rest) * c| ≤ a * c := by
  rw [abs_le]
  rcases hk with ⟨rfl, hr⟩ | ⟨rfl, hr⟩
  · have e1 : k * (2 * a * c) - (2 * a * k + rest) * c = -(rest * c) := by ring
    have t1 : rest * c ≤ a * c := mul_le_mul_of_nonneg_right hr hc
    have t2 : 0 ≤ rest * c := mul_nonneg h0 hc
    rw [e1]
    constructor <;> linarith
  · have e1 : (k₀ + 1) * (2 * a * c) - (2 * a * k₀ + rest) * c = (2 * a - rest) * c := by ring
    have t1 : (2 * a - rest) * c ≤ a * c := mul_le_mul_of_nonneg_right (by linarith) hc
    have t2 : 0 ≤ (2 * a - rest) * c := mul_nonneg (by linarith) hc
    rw [e1]
    constructor <;> linarith

/-- The bound `epsilon * m` as the code computes it is the whole number of
units nearest to the exact product `2 ^ (-23) * m`. -/
theorem mul_epsilon_near (mm ee : Int) (hm0 : 0 ≤ mm) (hm : mm.natAbs < 2 ^ 24)
    (h1 : -149 ≤ ee) (h2 : ee ≤ 104) :
    ∃ k q, mul epsilon (finite mm ee) = finite k q ∧ -149 ≤ q ∧
      |k * 2 ^ (q + 149).toNat * 2 ^ 23 - mm * 2 ^ (ee + 149).toNat| ≤ 2 ^ 22 := by
  have hmul : mul epsilon (finite mm ee) = round mm (-23 + ee) := by
    simp [mul, epsilon]
  rw [hmul]
  by_cases he : -149 ≤ -23 + ee
  · obtain ⟨k, q, hr, hq, hu⟩ := round_small mm (-23 + ee) hm he (by omega)
    refine ⟨k, q, hr, hq, ?_⟩
    have hexp : (ee + 149).toNat = (-23 + ee + 149).toNat + 23 := by omega
    rw [hu, hexp, pow_add]
    have : mm * 2 ^ (-23 + ee + 149).toNat * 2 ^ 23
        - mm * (2 ^ (-23 + ee + 149).toNat * 2 ^ 23) = 0 := by ring
    rw [this]
    norm_num
  · by_cases hn : mm.natAbs = 0
    · have hz : mm = 0 := by omega
      refine ⟨0, 0, by simp [round, hz], by norm_num, ?_⟩
      simp [hz]
    · have hlb := leading_bit_le mm.natAbs mm.natAbs 23 hm
      rw [round_eq mm (-23 + ee) hn _ _ rfl rfl]
      have hq : max (-23 + ee + (leading_bit mm.natAbs mm.natAbs : Int) - 23) (-149) = -149 :=
        max_eq_right (by omega)
      rw [hq]
      have hnle : ¬ ((-149 : Int) ≤ -23 + ee) := he
      simp only [hnle, if_false]
      have hs : ((-149 : Int) - (-23 + ee)).toNat = (-126 - ee).toNat := by omega
      rw [hs]
      generalize hsdef : (-126 - ee).toNat = s
      have hs1 : 1 ≤ s := by omega
      have hs23 : s ≤ 23 := by omega
      have hexp : (ee + 149).toNat = 23 - s := by omega
      have hmpos : ¬ (mm < 0) := by omega
      have hmm : (mm.natAbs : Int) = mm := by omega
      have hdm := Nat.div_add_mod mm.natAbs (2 ^ s)
      have hmodlt : mm.natAbs % 2 ^ s < 2 ^ s := Nat.mod_lt _ (by positivity)
      have hpow : (2 : Nat) ^ s = 2 * 2 ^ (s - 1) := by
        rw [← pow_succ']
        congr 1
        omega
      have h23 : (2 : Nat) ^ 23 = 2 ^ s * 2 ^ (23 - s) := by
        rw [← pow_add]
        congr 1
        omega
      have h22 : (2 : Nat) ^ 22 = 2 ^ (s - 1) * 2 ^ (23 - s) := by
        rw [← pow_add]
        congr 1
        omega
      generalize hrest : mm.natAbs % 2 ^ s = rest at hdm hmodlt
      generalize hk0 : mm.natAbs / 2 ^ s = k₀ at hdm
      have hk0le : k₀ < 2 ^ 24 := by
        rw [← hk0]
        exact lt_of_le_of_lt (Nat.div_le_self _ _) hm
      have key : ∀ k : Nat, (k = k₀ ∧ rest ≤ 2 ^ (s - 1)) ∨ (k = k₀ + 1 ∧ 2 ^ (s - 1) ≤ rest) →
          |(k : Int) * 2 ^ (-149 + 149 : Int).toNat * 2 ^ 23 - mm * 2 ^ (ee + 149).toNat|
            ≤ 2 ^ 22 := by
        intro k hk
        rw [hexp, ← hmm]
        have hzero : ((-149 : Int) + 149).toNat = 0 := by omega
        rw [hzero, pow_zero, mul_one, abs_le]
        have e23 : ((2 : Int) ^ 23) = 2 ^ s * 2 ^ (23 - s) := by exact_mod_cast h23
        have e22 : ((2 : Int) ^ 22) = 2 ^ (s - 1) * 2 ^ (23 - s) := by exact_mod_cast h22
        have epow : ((2 : Int) ^ s) = 2 * 2 ^ (s - 1) := by exact_mod_cast hpow
        have edm : ((2 : Int) ^ s) * (k₀ : Int) + (rest : Int) = (mm.natAbs : Int) := by
          exact_mod_cast hdm
        have hpos : (0 : Int) < 2 ^ (23 - s) := by positivity
        have hrestlt : (rest : Int) < 2 ^ s := by exact_mod_cast hmodlt
        rw [e22, e23, ← edm, epow]
        have hr0 : (0 : Int) ≤ rest := by positivity
        have hlt : (rest : Int) < 2 * 2 ^ (s - 1) := by rw [← epow]; exact hrestlt
        have hk' : ((k : Int) = (k₀ : Int) ∧ (rest : Int) ≤ 2 ^ (s - 1)) ∨
            ((k : Int) = (k₀ : Int) + 1 ∧ (2 : Int) ^ (s - 1) ≤ rest) := by
          rcases hk with ⟨h, hr⟩ | ⟨h, hr⟩
          · exact Or.inl ⟨by exact_mod_cast h, by exact_mod_cast hr⟩
          · exact Or.inr ⟨by exact_mod_cast h, by exact_mod_cast hr⟩
        have := near_algebra (2 ^ (s - 1)) (2 ^ (23 - s)) rest k₀ k (le_of_lt hpos) hr0 hlt hk'
        rw [abs_le] at this
        constructor <;> linarith [this.1, this.2]
      split
      · rename_i hcond
        have hk : (k₀ + 1) * 2 ^ ((-149 : Int) + 149).toNat < 2 ^ 128 * 2 ^ 149 := by
          have hzero : ((-149 : Int) + 149).toNat = 0 := by omega
          rw [hzero, pow_zero, mul_one]
          have : (2 : Nat) ^ 24 < 2 ^ 128 * 2 ^ 149 := by norm_num
          omega
        rw [if_neg (not_le.mpr hk)]
        refine ⟨_, _, rfl, le_refl _, key (k₀ + 1) (Or.inr ⟨rfl, ?_⟩)⟩
        rcases hcond with h | h
        · exact le_of_lt h
        · exact le_of_eq h.1.symm
      · rename_i hcond
        have hk : k₀ * 2 ^ ((-149 : Int) + 149).toNat < 2 ^ 128 * 2 ^ 149 := by
          have hzero : ((-149 : Int) + 149).toNat = 0 := by omega
          rw [hzero, pow_zero, mul_one]
          have : (2 : Nat) ^ 24 < 2 ^ 128 * 2 ^ 149 := by norm_num
          omega
        rw [if_neg (not_le.mpr hk)]
        refine ⟨_, _, rfl, le_refl _, key k₀ (Or.inl ⟨rfl, ?_⟩)⟩
        push_neg at hcond
        exact hcond.1

end Float32
end LinearAlgebraLib

namespace LinearAlgebraLib
namespace Float32

/-- The comparison `<=` of two finite numbers compares their whole numbers of
units. -/
theorem le_finite (m e m' e' : Int) (he : -149 ≤ e) (he' : -149 ≤ e') :
    le (finite m e) (finite m' e') = true ↔
      m * 2 ^ (e + 149).toNat ≤ m' * 2 ^ (e' + 149).toNat := by
  have h1 : (e + 149).toNat = (e - min e e').toNat + (min e e' + 149).toNat := by omega
  have h2 : (e' + 149).toNat = (e' - min e e').toNat + (min e e' + 149).toNat := by omega
  have hpos : (0 : Int) < 2 ^ (min e e' + 149).toNat := by positivity
  simp only [le, decide_eq_true_eq]
  rw [h1, h2, pow_add, pow_add, ← mul_assoc, ← mul_assoc]
  exact (mul_le_mul_right hpos).symm

/-- The larger of two absolute values, as `fmax` and `fabs` give it for finite
numbers: it is one of the two, and its units are the larger of theirs. -/
theorem fmax_fabs_finite (m e m' e' : Int) (hm : m.natAbs < 2 ^ 24) (he : -149 ≤ e)
    (he2 : e ≤ 104) (hm' : m'.natAbs < 2 ^ 24) (he' : -149 ≤ e') (he2' : e' ≤ 104) :
    ∃ mm ee, fmax (fabs (finite m e)) (fabs (finite m' e')) = finite mm ee ∧
      0 ≤ mm ∧ mm.natAbs < 2 ^ 24 ∧ -149 ≤ ee ∧ ee ≤ 104 ∧
      mm * 2 ^ (ee + 149).toNat = max |m * 2 ^ (e + 149).toNat| |m' * 2 ^ (e' + 149).toNat| := by
  have hx : |m * 2 ^ (e + 149).toNat| = |m| * 2 ^ (e + 149).toNat := by
    rw [abs_mul, abs_of_nonneg (a := (2 : Int) ^ (e + 149).toNat) (by positivity)]
  have hy : |m' * 2 ^ (e' + 149).toNat| = |m'| * 2 ^ (e' + 149).toNat := by
    rw [abs_mul, abs_of_nonneg (a := (2 : Int) ^ (e' + 149).toNat) (by positivity)]
  have hfm : fmax (fabs (finite m e)) (fabs (finite m' e'))
      = if le (finite |m| e) (finite |m'| e') then finite |m'| e' else finite |m| e := by
    simp [fmax, fabs]
  rw [hfm, hx, hy]
  by_cases hle : le (finite |m| e) (finite |m'| e') = true
  · rw [if_pos hle]
    refine ⟨|m'|, e', rfl, abs_nonneg _, by rw [Int.natAbs_abs]; exact hm', he', he2', ?_⟩
    exact (max_eq_right ((le_finite _ _ _ _ he he').1 hle)).symm
  · rw [if_neg hle]
    refine ⟨|m|, e, rfl, abs_nonneg _, by rw [Int.natAbs_abs]; exact hm, he, he2, ?_⟩
    have := mt (le_finite _ _ _ _ he he').2 hle
    exact (max_eq_left (le_of_lt (not_le.mp this))).symm

end Float32
end LinearAlgebraLib

namespace LinearAlgebraLib
namespace Float32

/-- The test of `operator==` on two finite binary32 numbers, in exact terms:
the bound the code computes is the whole number of units nearest to
`2 ^ (-23) * max(|x|, |y|)`, and the test succeeds exactly when the exact
difference `|x - y|` is at most that bound. -/
theorem almost_equal_finite (m e m' e' : Int) (hm : m.natAbs < 2 ^ 24) (he : -149 ≤ e)
    (he2 : e ≤ 104) (hm' : m'.natAbs < 2 ^ 24) (he' : -149 ≤ e') (he2' : e' ≤ 104) :
    ∃ k q, mul epsilon (fmax (fabs (finite m e)) (fabs (finite m' e'))) = finite k q ∧
      -149 ≤ q ∧
      |k * 2 ^ (q + 149).toNat * 2 ^ 23
        - (max |m * 2 ^ (e + 149).toNat| |m' * 2 ^ (e' + 149).toNat|)| ≤ 2 ^ 22 ∧
      (Matrix.almost_equal binary32 (finite m e) (finite m' e') = true ↔
        |m * 2 ^ (e + 149).toNat - m' * 2 ^ (e' + 149).toNat| ≤ k * 2 ^ (q + 149).toNat) := by
  obtain ⟨mm, ee, hfm, hmm0, hmm, hee, hee2, hM⟩ :=
    fmax_fabs_finite m e m' e' hm he he2 hm' he' he2'
  obtain ⟨k, q, hmul, hq, hnear⟩ := mul_epsilon_near mm ee hmm0 hmm hee hee2
  rw [hM] at hnear
  refine ⟨k, q, by rw [hfm, hmul], hq, hnear, ?_⟩
  have hae : Matrix.almost_equal binary32 (finite m e) (finite m' e')
      = le (fabs (sub (finite m e) (finite m' e'))) (finite k q) := by
    show le (fabs (sub (finite m e) (finite m' e')))
      (mul epsilon (fmax (fabs (finite m e)) (fabs (finite m' e')))) = _
    rw [hfm, hmul]
  have hsub : sub (finite m e) (finite m' e')
      = round (m * 2 ^ (e - min e e').toNat - m' * 2 ^ (e' - min e e').toNat) (min e e') := rfl
  rw [hae, hsub]
  have hμ1 : -149 ≤ min e e' := le_min he he'
  have hμ2 : min e e' ≤ 104 := le_trans (min_le_left _ _) he2
  have h1 : (e + 149).toNat = (e - min e e').toNat + (min e e' + 149).toNat := by omega
  have h2 : (e' + 149).toNat = (e' - min e e').toNat + (min e e' + 149).toNat := by omega
  have hD : (m * 2 ^ (e - min e e').toNat - m' * 2 ^ (e' - min e e').toNat)
      * 2 ^ (min e e' + 149).toNat
      = m * 2 ^ (e + 149).toNat - m' * 2 ^ (e' + 149).toNat := by
    rw [h1, h2, pow_add, pow_add]
    ring
  have hP : (1 : Int) ≤ 2 ^ (min e e' + 149).toNat := one_le_pow₀ (by norm_num)
  generalize hnint : m * 2 ^ (e - min e e').toNat - m' * 2 ^ (e' - min e e').toNat = nint at hD
  by_cases hsmall : nint.natAbs < 2 ^ 24
  · obtain ⟨k', q', hr, hq', hu⟩ := round_small nint (min e e') hsmall hμ1 hμ2
    rw [hr]
    simp only [fabs]
    rw [le_finite _ _ _ _ hq' hq, ← hD, ← hu, abs_mul,
      abs_of_nonneg (a := (2 : Int) ^ (q' + 149).toNat) (by positivity)]
  · have hbig : 2 ^ 24 ≤ nint.natAbs := not_lt.mp hsmall
    -- the exact difference, and the facts that make both sides false
    have hDabs : |m * 2 ^ (e + 149).toNat - m' * 2 ^ (e' + 149).toNat|
        = (nint.natAbs : Int) * 2 ^ (min e e' + 149).toNat := by
      rw [← hD, abs_mul, abs_of_nonneg (a := (2 : Int) ^ (min e e' + 149).toNat) (by positivity),
        Int.natCast_natAbs]
    have hn24 : (2 : Int) ^ 24 ≤ (nint.natAbs : Int) := by exact_mod_cast hbig
    have hDge : (2 : Int) ^ 24 ≤ |m * 2 ^ (e + 149).toNat - m' * 2 ^ (e' + 149).toNat| := by
      rw [hDabs]
      calc (2 : Int) ^ 24 = 2 ^ 24 * 1 := by ring
        _ ≤ (nint.natAbs : Int) * 2 ^ (min e e' + 149).toNat :=
          mul_le_mul hn24 hP (by norm_num) (by positivity)
    have hsmallop :
        (|m * 2 ^ (e + 149).toNat| ≤ |m * 2 ^ (e + 149).toNat - m' * 2 ^ (e' + 149).toNat|) ∨
        (|m' * 2 ^ (e' + 149).toNat| ≤ |m * 2 ^ (e + 149).toNat - m' * 2 ^ (e' + 149).toNat|) := by
      rcases le_total e e' with hle | hle
      · left
        have hmin : min e e' = e := min_eq_left hle
        rw [hDabs, hmin, abs_mul,
          abs_of_nonneg (a := (2 : Int) ^ (e + 149).toNat) (by positivity)]
        apply mul_le_mul_of_nonneg_right _ (by positivity)
        have : |m| < 2 ^ 24 := by
          rw [← Int.natCast_natAbs]
          exact_mod_cast hm
        linarith
      · right
        have hmin : min e e' = e' := min_eq_right hle
        rw [hDabs, hmin, abs_mul,
          abs_of_nonneg (a := (2 : Int) ^ (e' + 149).toNat) (by positivity)]
        apply mul_le_mul_of_nonneg_right _ (by positivity)
        have : |m'| < 2 ^ 24 := by
          rw [← Int.natCast_natAbs]
          exact_mod_cast hm'
        linarith
    generalize m * 2 ^ (e + 149).toNat = X at *
    generalize m' * 2 ^ (e' + 149).toNat = Y at *
    generalize hB : k * 2 ^ (q + 149).toNat = B at *
    have hM2D : max |X| |Y| ≤ 2 * |X - Y| := by
      have t1 : |X| ≤ |X - Y| + |Y| := by
        have := abs_add (X - Y) Y
        simpa using this
      have t2 : |Y| ≤ |X - Y| + |X| := by
        have := abs_add (Y - X) X
        rw [abs_sub_comm Y X] at this
        simpa using this
      rcases hsmallop with h | h
      · exact max_le (by linarith) (by linarith)
      · exact max_le (by linarith) (by linarith)
    have h2B : 2 * B ≤ |X - Y| := by
      have hn := (abs_le.mp hnear).2
      norm_num at hn hDge
      linarith
    have hDpos : 0 < |X - Y| := by
      norm_num at hDge
      linarith
    have hrhs : ¬ (|X - Y| ≤ B) := by
      intro h
      linarith
    rcases round_big nint (min e e') hbig hμ1 with ⟨negative, hr⟩ | ⟨k', q', hr, hq', hlow⟩
    · rw [hr]
      simp only [fabs, le]
      simp [hrhs]
    · rw [hr]
      simp only [fabs]
      rw [le_finite _ _ _ _ hq' hq, hB]
      rw [← hDabs] at hlow
      constructor
      · intro h
        exfalso
        linarith
      · intro h
        exact absurd h hrhs

end Float32
end LinearAlgebraLib

namespace LinearAlgebraLib
namespace Float32

/-- The test of `operator==` on two finite binary32 numbers compares the exact
difference with the rounded bound, which is the whole number of units nearest
to the exact bound. -/
theorem almost_equal_exact (x y : Float32) (hx : x.in_range) (hy : y.in_range) :
    |(mul epsilon (fmax (fabs x) (fabs y))).units * 2 ^ 23 - (max |x.units| |y.units|)|
      ≤ 2 ^ 22 ∧
    (Matrix.almost_equal binary32 x y = true ↔
      |x.units - y.units| ≤ (mul epsilon (fmax (fabs x) (fabs y))).units) := by
  cases x with
  | nan => exact absurd hx (by simp [in_range])
  | inf _ => exact absurd hx (by simp [in_range])
  | finite m e =>
    cases y with
    | nan => exact absurd hy (by simp [in_range])
    | inf _ => exact absurd hy (by simp [in_range])
    | finite m' e' =>
      obtain ⟨hm, he, he2⟩ := hx
      obtain ⟨hm', he', he2'⟩ := hy
      obtain ⟨k, q, hmul, -, hnear, hiff⟩ := almost_equal_finite m e m' e' hm he he2 hm' he' he2'
      rw [hmul]
      exact ⟨hnear, hiff⟩

/-- Within the exact bound the test succeeds. -/
theorem almost_equal_of_within (x y : Float32) (hx : x.in_range) (hy : y.in_range)
    (h : within_tolerance x y) : Matrix.almost_equal binary32 x y = true := by
  obtain ⟨hnear, hiff⟩ := almost_equal_exact x y hx hy
  rw [hiff]
  unfold within_tolerance at h
  have h1 := (abs_le.mp hnear).1
  by_contra hcon
  have : (mul epsilon (fmax (fabs x) (fabs y))).units + 1 ≤ |x.units - y.units| := by omega
  generalize max |x.units| |y.units| = bound at h h1
  norm_num at h h1
  linarith

/-- When the exact bound is itself a whole number of units, the test succeeds
exactly within the exact bound. -/
theorem almost_equal_iff_within (x y : Float32) (hx : x.in_range) (hy : y.in_range)
    (hdvd : (2 : Int) ^ 23 ∣ max |x.units| |y.units|) :
    Matrix.almost_equal binary32 x y = true ↔ within_tolerance x y := by
  obtain ⟨hnear, hiff⟩ := almost_equal_exact x y hx hy
  rw [hiff]
  unfold within_tolerance
  obtain ⟨j, hj⟩ := hdvd
  rw [hj] at hnear ⊢
  have h1 := (abs_le.mp hnear).1
  have h2 := (abs_le.mp hnear).2
  norm_num at h1 h2 ⊢
  have hB : (mul epsilon (fmax (fabs x) (fabs y))).units = j := by omega
  rw [hB]
  constructor <;> intro h <;> linarith

/-- A NaN passes the test against nothing. -/
theorem almost_equal_nan (x y : Float32) (h : x = nan ∨ y = nan) :
    Matrix.almost_equal binary32 x y = false := by
  have hle : ∀ z, le nan z = false := fun z => by cases z <;> rfl
  have hsub : sub x y = nan := by
    rcases h with rfl | rfl
    · cases y <;> rfl
    · cases x <;> rfl
  show le (fabs (sub x y)) (mul epsilon (fmax (fabs x) (fabs y))) = false
  rw [hsub]
  exact hle _

end Float32
end LinearAlgebraLib

namespace LinearAlgebraLib
open Matrix MatrixTest

/-- C8, as stated, fails: the finite `float` numbers `x = 5000000 * 2 ^ (-149)`
and `y = 4999999 * 2 ^ (-149)` differ by `2 ^ (-149)`, which exceeds
`epsilon * max(|x|, |y|) = 0.596 * 2 ^ (-149)`, and yet the 1x1 matrices that
hold them compare equal: the code compares with the product rounded to a
`float`, which here is `2 ^ (-149)`. -/
theorem floating_point_equality_beyond_bound :
    (Matrix.mk ![![Float32.finite 5000000 (-149)]]).equals (Category.floating_point binary32)
      (Matrix.mk ![![Float32.finite 4999999 (-149)]]) = true ∧
    (Float32.finite 5000000 (-149)).in_range ∧ (Float32.finite 4999999 (-149)).in_range ∧
    ¬ Float32.within_tolerance (Float32.finite 5000000 (-149))
      (Float32.finite 4999999 (-149)) := by
  refine ⟨by decide, by simp [Float32.in_range], by simp [Float32.in_range], ?_⟩
  simp only [Float32.within_tolerance, Float32.units]
  norm_num

/-- C8, amended. For a floating-point element type, `A == B` is true exactly
when every pair `x = A[row][col]`, `y = B[row][col]` passes
`fabs(x - y) <= epsilon * fmax(fabs(x), fabs(y))` as `T`'s arithmetic evaluates
it.  For finite `float` elements that is: the exact difference `|x - y|` is at
most the bound rounded to a `float`, which is the multiple of `2 ^ (-149)`
nearest to the exact bound `2 ^ (-23) * max(|x|, |y|)`.  So matrices whose
elements all differ within the exact bound compare equal; a pair that exceeds
the exact bound makes them compare unequal whenever that bound is itself a
multiple of `2 ^ (-149)`, and where every bound is such a multiple `A == B` is
true exactly when every pair is within the exact bound.  A pair with a NaN
never passes.  For `float`, `1` and `1 + 2 ^ (-23)` compare equal and `1` and
`1 + 2 ^ (-22)` do not. -/
theorem floating_point_equality_tolerant :
    (∀ (T : Type) (fp : FloatingPoint T) (M N : Nat) (A B : Matrix T M N),
      A.equals (Category.floating_point fp) B = true ↔
        ∀ (row : Fin M) (col : Fin N),
          fp.le (fp.fabs (fp.sub (A.m_elem row col) (B.m_elem row col)))
            (fp.mul fp.epsilon
              (fp.fmax (fp.fabs (A.m_elem row col)) (fp.fabs (B.m_elem row col)))) = true) ∧
    (∀ (M N : Nat) (A B : Matrix Float32 M N),
      (∀ (row : Fin M) (col : Fin N),
        (A.m_elem row col).in_range ∧ (B.m_elem row col).in_range) →
      (A.equals (Category.floating_point binary32) B = true ↔
        ∀ (row : Fin M) (col : Fin N),
          |(A.m_elem row col).units - (B.m_elem row col).units| ≤
            (Float32.mul Float32.epsilon (Float32.fmax (Float32.fabs (A.m_elem row col))
              (Float32.fabs (B.m_elem row col)))).units) ∧
      (∀ (row : Fin M) (col : Fin N),
        |(Float32.mul Float32.epsilon (Float32.fmax (Float32.fabs (A.m_elem row col))
              (Float32.fabs (B.m_elem row col)))).units * 2 ^ 23
            - (max |(A.m_elem row col).units| |(B.m_elem row col).units|)| ≤ 2 ^ 22) ∧
      ((∀ (row : Fin M) (col : Fin N),
          Float32.within_tolerance (A.m_elem row col) (B.m_elem row col)) →
        A.equals (Category.floating_point binary32) B = true) ∧
      ((∃ (row : Fin M) (col : Fin N),
          (2 : Int) ^ 23 ∣ (max |(A.m_elem row col).units| |(B.m_elem row col).units|) ∧
          ¬ Float32.within_tolerance (A.m_elem row col) (B.m_elem row col)) →
        A.equals (Category.floating_point binary32) B = false) ∧
      ((∀ (row : Fin M) (col : Fin N),
          (2 : Int) ^ 23 ∣ (max |(A.m_elem row col).units| |(B.m_elem row col).units|)) →
        (A.equals (Category.floating_point binary32) B = true ↔
          ∀ (row : Fin M) (col : Fin N),
            Float32.within_tolerance (A.m_elem row col) (B.m_elem row col)))) ∧
    (∀ (M N : Nat) (A B : Matrix Float32 M N),
      (∃ (row : Fin M) (col : Fin N),
        A.m_elem row col = Float32.nan ∨ B.m_elem row col = Float32.nan) →
      A.equals (Category.floating_point binary32) B = false) ∧
    (Matrix.mk ![![Float32.finite 1 0]]).equals (Category.floating_point binary32)
      (Matrix.mk ![![Float32.finite 8388609 (-23)]]) = true ∧
    (Matrix.mk ![![Float32.finite 1 0]]).equals (Category.floating_point binary32)
      (Matrix.mk ![![Float32.finite 8388610 (-23)]]) = false := by
  refine ⟨fun _ fp _ _ A B => equals_floating_point_iff fp A B, fun M N A B hfin => ?_,
    fun M N A B ⟨row, col, hnan⟩ => ?_, by decide, by decide⟩
  · refine ⟨?_, fun row col => ?_, fun hall => ?_, fun ⟨row, col, hdvd, hout⟩ => ?_,
      fun hdvd => ?_⟩
    · rw [equals_floating_point_iff]
      exact forall_congr' fun row => forall_congr' fun col =>
        (Float32.almost_equal_exact _ _ (hfin row col).1 (hfin row col).2).2
    · exact (Float32.almost_equal_exact _ _ (hfin row col).1 (hfin row col).2).1
    · rw [equals_floating_point_iff]
      exact fun row col =>
        Float32.almost_equal_of_within _ _ (hfin row col).1 (hfin row col).2 (hall row col)
    · cases heq : A.equals (Category.floating_point binary32) B with
      | false => rfl
      | true =>
        rw [equals_floating_point_iff] at heq
        exact absurd ((Float32.almost_equal_iff_within _ _ (hfin row col).1 (hfin row col).2
          hdvd).1 (heq row col)) hout
    · rw [equals_floating_point_iff]
      exact forall_congr' fun row => forall_congr' fun col =>
        Float32.almost_equal_iff_within _ _ (hfin row col).1 (hfin row col).2 (hdvd row col)
  · cases heq : A.equals (Category.floating_point binary32) B with
    | false => rfl
    | true =>
      rw [equals_floating_point_iff] at heq
      have := Float32.almost_equal_nan _ _ hnan
      rw [heq row col] at this
      exact absurd this (by decide)

/-- C8 at the 1x1 matrices holding `1` and `1 + 2 ^ (-23)`: the pair is within
the exact bound, so the matrices compare equal. -/
theorem floating_point_equality_tolerant_witness :
    Float32.within_tolerance (Float32.finite 1 0) (Float32.finite 8388609 (-23)) ∧
    (Matrix.mk ![![Float32.finite 1 0]]).equals (Category.floating_point binary32)
      (Matrix.mk ![![Float32.finite 8388609 (-23)]]) = true := by
  have hin : ∀ (row col : Fin 1),
      ((Matrix.mk ![![Float32.finite 1 0]] : Matrix Float32 1 1).m_elem row col).in_range ∧
      ((Matrix.mk ![![Float32.finite 8388609 (-23)]] : Matrix Float32 1 1).m_elem
        row col).in_range := by
    intro row col
    fin_cases row
    fin_cases col
    simp [Float32.in_range]
  have hwithin : Float32.within_tolerance (Float32.finite 1 0)
      (Float32.finite 8388609 (-23)) := by
    have h149 : Int.toNat 149 = 149 := rfl
    have h126 : Int.toNat 126 = 126 := rfl
    simp only [Float32.within_tolerance, Float32.units]
    norm_num [h149, h126]
  refine ⟨hwithin, (floating_point_equality_tolerant.2.1 1 1 _ _ hin).2.2.1 ?_⟩
  intro row col
  fin_cases row
  fin_cases col
  exact hwithin

end LinearAlgebraLib

namespace LinearAlgebraLib
open Matrix MatrixTest

/-- A flat index `row * N + col` with `row < M` and `col < N` is below `M * N`. -/
theorem flat_index_lt {M N : Nat} (row : Fin M) (col : Fin N) :
    row.val * N + col.val < M * N :=
  calc row.val * N + col.val < row.val * N + N := Nat.add_lt_add_left col.isLt _
    _ = (row.val + 1) * N := (Nat.succ_mul _ _).symm
    _ ≤ M * N := Nat.mul_le_mul_right _ row.isLt

/-- C9. A matrix constructed from a brace list of `Rows * Cols` values holds
them in row-major order: `get(row, col)` is `values[row * Cols + col]` for
every `row < Rows` and `col < Cols`, and every listed value `values[k]` is the
element at `(k / Cols, k % Cols)`. -/
theorem create_from_row_major (T : Type) [Zero T] (M N : Nat) (values : List T)
    (h : values.length = M * N) :
    ∃ grid, StdArray.brace_init M N values = some grid ∧
      (∀ (row : Fin M) (col : Fin N), ∃ x, values[row.val * N + col.val]? = some x ∧
        (create_from grid).get (row.val, col.val) = Except.ok x) ∧
      (∀ k, k < values.length → ∃ x, values[k]? = some x ∧
        (create_from grid).get (k / N, k % N) = Except.ok x) := by
  have cell : ∀ (row : Fin M) (col : Fin N), ∃ x, values[row.val * N + col.val]? = some x ∧
      (create_from (fun (row : Fin M) (col : Fin N) =>
        values.getD (row.val * N + col.val) 0)).get (row.val, col.val) = Except.ok x := by
    intro row col
    have hlt : row.val * N + col.val < values.length := h ▸ flat_index_lt row col
    refine ⟨values[row.val * N + col.val], List.getElem?_eq_getElem hlt, ?_⟩
    rw [get_in_range]
    simp [create_from, List.getD_eq_getElem?_getD, List.getElem?_eq_getElem hlt]
  refine ⟨fun row col => values.getD (row.val * N + col.val) 0, ?_, cell, ?_⟩
  · simp [StdArray.brace_init, h]
  · intro k hk
    rw [h] at hk
    have hN : 0 < N := Nat.pos_of_ne_zero fun h0 => by simp [h0] at hk
    have hrow : k / N < M := (Nat.div_lt_iff_lt_mul hN).2 hk
    have hcol : k % N < N := Nat.mod_lt _ hN
    have := cell ⟨k / N, hrow⟩ ⟨k % N, hcol⟩
    simp only [Nat.div_add_mod'] at this
    exact this

/-- C9 at `Matrix<int, 2, 2> mi({0, 1, 1, 2})`: the element at every
`(row, col)` is `row + col`. -/
theorem create_from_row_major_witness :
    [(0 : Int), 1, 1, 2].length = 2 * 2 ∧
    ∃ grid, StdArray.brace_init 2 2 [(0 : Int), 1, 1, 2] = some grid ∧
      ∀ (row col : Fin 2),
        (create_from grid).get (row.val, col.val) = Except.ok ((row.val : Int) + col.val) := by
  refine ⟨rfl, ?_⟩
  obtain ⟨grid, hgrid, hcell, -⟩ := create_from_row_major Int 2 2 [0, 1, 1, 2] rfl
  refine ⟨grid, hgrid, fun row col => ?_⟩
  obtain ⟨x, hx, hget⟩ := hcell row col
  rw [hget]
  fin_cases row <;> fin_cases col <;> simp at hx <;> simp [← hx]

/-- C10: `operator=` on a 2x3 matrix.  Its parameter is a
`std::array<std::array<int, 2>, 3>`, the body assigns that to the 2x3 grid, and
the instantiation is ill-formed: there is no reassignment for this shape,
whereas for a square shape the assignment installs the initializer. -/
theorem assign_non_square_ill_formed :
    m23.assign m23_initializer = none ∧
    ∃ assigned, mi.assign ![![0, 1], ![1, 2]] = some assigned ∧
      ∀ (row col : Fin 2),
        assigned.get (row.val, col.val) = Except.ok ((row.val : Int) + col.val) := by
  refine ⟨by simp [assign], ⟨fun row col => ![![0, 1], ![1, 2]] row col⟩, by simp [assign],
    fun row col => ?_⟩
  rw [get_in_range]
  fin_cases row <;> fin_cases col <;> rfl

end LinearAlgebraLib

namespace LinearAlgebraLib
open Matrix MatrixTest

/-- A loop whose body never throws never throws. -/
theorem foldlM_ok {α β : Type} (f : β → α → Except Fault β)
    (h : ∀ b a, ∃ b', f b a = Except.ok b') (l : List α) (b : β) :
    ∃ b', l.foldlM f b = Except.ok b' := by
  induction l generalizing b with
  | nil => exact ⟨b, rfl⟩
  | cons a l ih =>
    obtain ⟨b', hb'⟩ := h b a
    rw [List.foldlM_cons, hb', Matrix.ok_bind]
    exact ih b'

/-- The `operator*` never throws, whatever the element arithmetic is. -/
theorem multiply_ok {T : Type} [Zero T] [Add T] [Mul T] {M N L : Nat}
    (a : Matrix T M N) (b : Matrix T N L) : ∃ P, a.multiply b = Except.ok P := by
  unfold multiply
  refine foldlM_ok _ (fun prod row => foldlM_ok _ (fun prod col =>
    foldlM_ok _ (fun prod i =>
      ⟨prod.store (row, col) (prod.load (row, col) + a.m_elem row i * b.m_elem i col), ?_⟩)
      _ _) _ _) _ _
  simp only [get_in_range, ref_in_range, bind, Except.bind, pure, Except.pure]

/-- C11. `rows()` and `columns()` return the shape parameters; the product of
an `(M, N)` and an `(N, L)` matrix is returned and reports `rows() = M`,
`columns() = L`; the transpose of an `(M, N)` matrix is returned and reports
`rows() = N`, `columns() = M`. -/
theorem shapes_propagate :
    (∀ (T : Type) (M N : Nat) (A : Matrix T M N), A.rows = M ∧ A.columns = N) ∧
    (∀ (T : Type) [Zero T] [Add T] [Mul T] (M N L : Nat) (A : Matrix T M N) (B : Matrix T N L),
      ∃ P, A.multiply B = Except.ok P ∧ P.rows = M ∧ P.columns = L) ∧
    (∀ (T : Type) [Zero T] (M N : Nat) (A : Matrix T M N),
      ∃ R, A.transpose = Except.ok R ∧ R.rows = N ∧ R.columns = M) := by
  refine ⟨fun _ _ _ _ => ⟨rfl, rfl⟩, fun T _ _ _ M N L A B => ?_, fun T _ M N A => ?_⟩
  · obtain ⟨P, hP⟩ := multiply_ok A B
    exact ⟨P, hP, rfl, rfl⟩
  · exact ⟨_, transpose_eq A, rfl, rfl⟩

set_option maxRecDepth 100000 in
/-- C12. In binary32 arithmetic (round to nearest, ties to even, every product
and sum rounded to `float`), `[[0.1f, 0.2f], [0.3f, 0.4f]]` times
`[[1, 2], [3, 4]]` is returned and compares equal, under the floating-point
`operator==`, to `[[0.7f, 1.0f], [1.5f, 2.2f]]`.  The element at `(0, 0)` is
`11744052 * 2 ^ (-24)`, one unit in the last place above `0.7f`, and within
the tolerance. -/
theorem float_product_almost_equal :
    ∃ P, mf1.multiply mf2 = Except.ok P ∧
      P.equals (Category.floating_point binary32) mf_expected = true ∧
      P.get (0, 0) = Except.ok (Float32.finite 11744052 (-24)) ∧
      mf_expected.get (0, 0) = Except.ok (Float32.finite 11744051 (-24)) := by
  refine ⟨_, rfl, ?_, ?_, ?_⟩
  · decide
  · rfl
  · rfl

end LinearAlgebraLib

namespace Roman

/-! ## `getValue` on an arbitrary tree -/

theorem mem_of_lookup {c : Char} {node : ValueNode} :
    ∀ {m_tree : ValueNodeMap}, m_tree.lookup c = some node → (c, node) ∈ m_tree
  | [], h => by simp at h
  | (k, n) :: m_tree, h => by
    rw [List.lookup_cons] at h
    by_cases hk : c = k
    · subst hk
      simp at h
      subst h
      exact List.mem_cons_self _ _
    · have : (c == k) = false := by simpa using hk
      rw [this] at h
      exact List.mem_cons_of_mem _ (mem_of_lookup h)

theorem nil_mem_paths (depth : Nat) (m_tree : ValueNodeMap) : ([], 0) ∈ paths depth m_tree := by
  cases depth <;> simp [paths]

theorem cons_mem_paths {depth : Nat} {m_tree : ValueNodeMap} {c : Char} {node : ValueNode}
    {p : List Char} {w : Int} (hmem : (c, node) ∈ m_tree) (hp : (p, w) ∈ paths depth node.m_tree) :
    (c :: p, if w = -1 then -1 else if w > 0 then w else node.m_value)
      ∈ paths (depth + 1) m_tree := by
  simp only [paths, List.mem_cons, List.mem_flatMap, List.mem_map]
  exact Or.inr ⟨(c, node), hmem, (p, w), hp, rfl⟩

/-- What `getValue` returns, when it is not -1, is the value of a path of the
tree, and that path is what it took off the front of the string. -/
theorem getValue_sound (s : List Char) :
    ∀ (m_tree : ValueNodeMap) (v : Int) (rest : List Char),
      getValue m_tree s = (v, rest) → v ≠ -1 →
      ∃ p, s = p ++ rest ∧ (p, v) ∈ paths s.length m_tree := by
  induction s with
  | nil =>
    intro m_tree v rest h _
    simp only [getValue, Prod.mk.injEq] at h
    obtain ⟨rfl, rfl⟩ := h
    exact ⟨[], rfl, nil_mem_paths _ _⟩
  | cons c s ih =>
    intro m_tree v rest h hv
    rw [getValue] at h
    by_cases hc : isValidNumeral c = true
    · simp only [hc, Bool.not_true, Bool.false_eq_true, if_false] at h
      cases hl : m_tree.lookup c with
      | none =>
        rw [hl] at h
        simp only [Prod.mk.injEq] at h
        obtain ⟨rfl, rfl⟩ := h
        exact ⟨[], rfl, nil_mem_paths _ _⟩
      | some node =>
        rw [hl] at h
        simp only at h
        cases hsub : getValue node.m_tree s with
        | mk w r =>
          rw [hsub] at h
          simp only at h
          by_cases hw : w = -1
          · simp only [hw, if_true, Prod.mk.injEq] at h
            exact absurd h.1.symm hv
          · obtain ⟨p, hp, hmem⟩ := ih node.m_tree w r hsub hw
            have hres : (v, rest) = (if w = -1 then -1 else if w > 0 then w else node.m_value, r) := by
              rw [← h]
              by_cases hpos : w > 0 <;> simp [hw, hpos]
            simp only [Prod.mk.injEq] at hres
            obtain ⟨rfl, rfl⟩ := hres
            exact ⟨c :: p, by rw [hp]; rfl, cons_mem_paths (mem_of_lookup hl) hmem⟩
    · simp only [hc, Bool.not_false, if_true, Prod.mk.injEq] at h
      exact absurd h.1.symm hv

/-- In a tree no deeper than `depth`, the paths of any length are among those
of length `depth`. -/
theorem paths_of_depth_le (n : Nat) :
    ∀ (depth : Nat) (m_tree : ValueNodeMap) (e : List Char × Int),
      depth_le depth m_tree = true → e ∈ paths n m_tree → e ∈ paths depth m_tree := by
  induction n with
  | zero =>
    intro depth m_tree e _ he
    simp only [paths, List.mem_singleton] at he
    subst he
    exact nil_mem_paths _ _
  | succ n ih =>
    intro depth m_tree e hd he
    simp only [paths, List.mem_cons, List.mem_flatMap, List.mem_map] at he
    rcases he with rfl | ⟨entry, hentry, found, hfound, rfl⟩
    · exact nil_mem_paths _ _
    · cases depth with
      | zero =>
        simp only [depth_le, List.isEmpty_iff] at hd
        subst hd
        simp at hentry
      | succ depth =>
        simp only [depth_le, List.all_eq_true] at hd
        exact @cons_mem_paths depth m_tree entry.1 entry.2 found.1 found.2 hentry
          (ih depth entry.2.m_tree found (hd entry hentry) hfound)

end Roman

namespace Roman

/-! ## The four trees of `roman2int` -/

/-- The tree `thousands` is built, and reads exactly the notations of the
thousands, stopping in front of any numeral other than M. -/
theorem thousands_facts :
    ∃ m_tree, thousands = some m_tree ∧
      (∀ e ∈ paths 4 m_tree, e ∈ thousands_table) ∧ depth_le 4 m_tree = true ∧
      ∀ rest, starts_with ['C', 'D', 'X', 'L', 'I', 'V'] rest = true →
        ∀ e ∈ thousands_table, getValue m_tree (e.1 ++ rest) = (e.2, rest) := by
  refine ⟨_, rfl, by decide, by decide, fun rest hrest => ?_⟩
  cases rest with
  | nil => decide
  | cons c r =>
    simp only [starts_with, List.contains_eq_any_beq, List.any_cons, List.any_nil, beq_iff_eq,
      Bool.or_false, Bool.or_eq_true, decide_eq_true_eq] at hrest
    simp only [thousands_table, List.forall_mem_cons, List.not_mem_nil, false_implies,
      implies_true, and_true]
    rcases hrest with rfl | rfl | rfl | rfl | rfl | rfl <;> refine ⟨?_, ?_, ?_, ?_⟩ <;> rfl

end Roman

namespace Roman

/-- The tree `hundreds` is built, and reads exactly the notations of the
hundreds, stopping in front of X, L, I and V. -/
theorem hundreds_facts :
    ∃ m_tree, hundreds = some m_tree ∧
      (∀ e ∈ paths 4 m_tree, e ∈ hundreds_table) ∧ depth_le 4 m_tree = true ∧
      ∀ rest, starts_with ['X', 'L', 'I', 'V'] rest = true →
        ∀ e ∈ hundreds_table, getValue m_tree (e.1 ++ rest) = (e.2, rest) := by
  refine ⟨_, rfl, by decide, by decide, fun rest hrest => ?_⟩
  cases rest with
  | nil => decide
  | cons c r =>
    simp only [starts_with, List.contains_eq_any_beq, List.any_cons, List.any_nil, beq_iff_eq,
      Bool.or_false, Bool.or_eq_true, decide_eq_true_eq] at hrest
    simp only [hundreds_table, List.forall_mem_cons, List.not_mem_nil, false_implies,
      implies_true, and_true]
    rcases hrest with rfl | rfl | rfl | rfl <;>
      refine ⟨?_, ?_, ?_, ?_, ?_, ?_, ?_, ?_, ?_, ?_⟩ <;> rfl

/-- The tree `tens` is built, and reads exactly the notations of the tens,
stopping in front of I and V. -/
theorem tens_facts :
    ∃ m_tree, tens = some m_tree ∧
      (∀ e ∈ paths 4 m_tree, e ∈ tens_table) ∧ depth_le 4 m_tree = true ∧
      ∀ rest, starts_with ['I', 'V'] rest = true →
        ∀ e ∈ tens_table, getValue m_tree (e.1 ++ rest) = (e.2, rest) := by
  refine ⟨_, rfl, by decide, by decide, fun rest hrest => ?_⟩
  cases rest with
  | nil => decide
  | cons c r =>
    simp only [starts_with, List.contains_eq_any_beq, List.any_cons, List.any_nil, beq_iff_eq,
      Bool.or_false, Bool.or_eq_true, decide_eq_true_eq] at hrest
    simp only [tens_table, List.forall_mem_cons, List.not_mem_nil, false_implies,
      implies_true, and_true]
    rcases hrest with rfl | rfl <;>
      refine ⟨?_, ?_, ?_, ?_, ?_, ?_, ?_, ?_, ?_, ?_⟩ <;> rfl

/-- The tree `ones` is built, and reads exactly the notations of the ones when
nothing follows them. -/
theorem ones_facts :
    ∃ m_tree, ones = some m_tree ∧
      (∀ e ∈ paths 4 m_tree, e ∈ ones_table) ∧ depth_le 4 m_tree = true ∧
      ∀ e ∈ ones_table, getValue m_tree e.1 = (e.2, []) := by
  refine ⟨_, rfl, by decide, by decide, by decide⟩

/-- A value found in one of the four tables is not negative. -/
theorem table_nonneg :
    (∀ e ∈ thousands_table, 0 ≤ e.2) ∧ (∀ e ∈ hundreds_table, 0 ≤ e.2) ∧
    (∀ e ∈ tens_table, 0 ≤ e.2) ∧ (∀ e ∈ ones_table, 0 ≤ e.2) := by
  decide

/-- What follows a notation of the thousands in a string of valid notation
begins with none of the numerals the tree could still take, and likewise after
the hundreds and after the tens. -/
theorem table_starts :
    (∀ h ∈ hundreds_table, ∀ x ∈ tens_table, ∀ o ∈ ones_table,
      starts_with ['C', 'D', 'X', 'L', 'I', 'V'] (h.1 ++ (x.1 ++ o.1)) = true) ∧
    (∀ x ∈ tens_table, ∀ o ∈ ones_table,
      starts_with ['X', 'L', 'I', 'V'] (x.1 ++ o.1) = true) ∧
    (∀ o ∈ ones_table, starts_with ['I', 'V'] o.1 = true) := by
  refine ⟨?_, ?_, ?_⟩ <;> decide

end Roman

namespace Roman

/-! ## `roman2int` and valid notation -/

/-- One tree at work inside `roman2int`: when it does not return -1, it has
taken one of the table's notations off the front and returns its value. -/
theorem stage_sound {m_tree : ValueNodeMap} {table : List (List Char × Int)}
    (htable : ∀ e ∈ paths 4 m_tree, e ∈ table) (hdepth : depth_le 4 m_tree = true)
    {s rest : List Char} {v : Int} (h : getValue m_tree s = (v, rest)) (hv : v ≠ -1) :
    ∃ e ∈ table, s = e.1 ++ rest ∧ v = e.2 := by
  obtain ⟨p, hp, hmem⟩ := getValue_sound s m_tree v rest h hv
  exact ⟨(p, v), htable _ (paths_of_depth_le _ 4 m_tree _ hdepth hmem), hp, rfl⟩

/-- The function `roman2int` always returns, and what it returns is -1 or the
value of the valid notation it was given. -/
theorem roman2int_sound (s : List Char) :
    ∃ v, roman2int s = some v ∧ (v = -1 ∨ WellFormed s v) := by
  obtain ⟨t₁, ht₁, hp₁, hd₁, -⟩ := thousands_facts
  obtain ⟨t₂, ht₂, hp₂, hd₂, -⟩ := hundreds_facts
  obtain ⟨t₃, ht₃, hp₃, hd₃, -⟩ := tens_facts
  obtain ⟨t₄, ht₄, hp₄, hd₄, -⟩ := ones_facts
  simp only [roman2int, ht₁, ht₂, ht₃, ht₄, Option.some_bind]
  cases h₁ : getValue t₁ s with
  | mk v₁ r₁ =>
    by_cases hv₁ : v₁ = -1
    · exact ⟨-1, by simp [hv₁], Or.inl rfl⟩
    obtain ⟨e₁, he₁, hs₁, rfl⟩ := stage_sound hp₁ hd₁ h₁ hv₁
    cases h₂ : getValue t₂ r₁ with
    | mk v₂ r₂ =>
      by_cases hv₂ : v₂ = -1
      · exact ⟨-1, by simp [hv₁, hv₂], Or.inl rfl⟩
      obtain ⟨e₂, he₂, hs₂, rfl⟩ := stage_sound hp₂ hd₂ h₂ hv₂
      cases h₃ : getValue t₃ r₂ with
      | mk v₃ r₃ =>
        by_cases hv₃ : v₃ = -1
        · exact ⟨-1, by simp [hv₁, hv₂, hv₃], Or.inl rfl⟩
        obtain ⟨e₃, he₃, hs₃, rfl⟩ := stage_sound hp₃ hd₃ h₃ hv₃
        cases h₄ : getValue t₄ r₃ with
        | mk v₄ r₄ =>
          by_cases hv₄ : v₄ = -1
          · exact ⟨-1, by simp [hv₁, hv₂, hv₃, hv₄], Or.inl rfl⟩
          obtain ⟨e₄, he₄, hs₄, rfl⟩ := stage_sound hp₄ hd₄ h₄ hv₄
          cases r₄ with
          | cons c r => exact ⟨-1, by simp [hv₁, hv₂, hv₃, hv₄], Or.inl rfl⟩
          | nil =>
            refine ⟨e₁.2 + e₂.2 + e₃.2 + e₄.2, by simp [hv₁, hv₂, hv₃, hv₄], Or.inr ?_⟩
            refine ⟨e₁, he₁, e₂, he₂, e₃, he₃, e₄, he₄, ?_, rfl⟩
            rw [hs₁, hs₂, hs₃, hs₄]
            simp

/-- A string of valid notation is read in full: `roman2int` returns its value. -/
theorem roman2int_complete {s : List Char} {v : Int} (h : WellFormed s v) :
    roman2int s = some v := by
  obtain ⟨e₁, he₁, e₂, he₂, e₃, he₃, e₄, he₄, rfl, rfl⟩ := h
  obtain ⟨t₁, ht₁, -, -, hc₁⟩ := thousands_facts
  obtain ⟨t₂, ht₂, -, -, hc₂⟩ := hundreds_facts
  obtain ⟨t₃, ht₃, -, -, hc₃⟩ := tens_facts
  obtain ⟨t₄, ht₄, -, -, hc₄⟩ := ones_facts
  obtain ⟨hn₁, hn₂, hn₃, hn₄⟩ := table_nonneg
  obtain ⟨hs₁, hs₂, hs₃⟩ := table_starts
  have h₁ := hc₁ _ (hs₁ e₂ he₂ e₃ he₃ e₄ he₄) e₁ he₁
  have h₂ := hc₂ _ (hs₂ e₃ he₃ e₄ he₄) e₂ he₂
  have h₃ := hc₃ _ (hs₃ e₄ he₄) e₃ he₃
  have h₄ := hc₄ e₄ he₄
  have n₁ : e₁.2 ≠ -1 := fun h => absurd (hn₁ e₁ he₁) (by omega)
  have n₂ : e₂.2 ≠ -1 := fun h => absurd (hn₂ e₂ he₂) (by omega)
  have n₃ : e₃.2 ≠ -1 := fun h => absurd (hn₃ e₃ he₃) (by omega)
  have n₄ : e₄.2 ≠ -1 := fun h => absurd (hn₄ e₄ he₄) (by omega)
  simp only [roman2int, ht₁, ht₂, ht₃, ht₄, Option.some_bind, List.append_assoc, h₁, h₂, h₃, h₄,
    n₁, n₂, n₃, n₄, if_false, List.isEmpty_nil, Bool.not_true, Bool.false_eq_true]

/-- The value of a valid notation is not negative. -/
theorem wellFormed_nonneg {s : List Char} {v : Int} (h : WellFormed s v) : 0 ≤ v := by
  obtain ⟨e₁, he₁, e₂, he₂, e₃, he₃, e₄, he₄, -, rfl⟩ := h
  obtain ⟨hn₁, hn₂, hn₃, hn₄⟩ := table_nonneg
  have := hn₁ e₁ he₁
  have := hn₂ e₂ he₂
  have := hn₃ e₃ he₃
  have := hn₄ e₄ he₄
  omega

end Roman

namespace Roman

/-- Every character of a string of valid notation is a Roman numeral. -/
theorem wellFormed_numerals {s : List Char} {v : Int} (h : WellFormed s v) :
    ∀ c ∈ s, c ∈ s_valid_numerals := by
  obtain ⟨e₁, he₁, e₂, he₂, e₃, he₃, e₄, he₄, rfl, -⟩ := h
  have k₁ : ∀ e ∈ thousands_table, ∀ c ∈ e.1, c ∈ s_valid_numerals := by decide
  have k₂ : ∀ e ∈ hundreds_table, ∀ c ∈ e.1, c ∈ s_valid_numerals := by decide
  have k₃ : ∀ e ∈ tens_table, ∀ c ∈ e.1, c ∈ s_valid_numerals := by decide
  have k₄ : ∀ e ∈ ones_table, ∀ c ∈ e.1, c ∈ s_valid_numerals := by decide
  intro c hc
  simp only [List.mem_append] at hc
  rcases hc with ((hc | hc) | hc) | hc
  · exact k₁ e₁ he₁ c hc
  · exact k₂ e₂ he₂ c hc
  · exact k₃ e₃ he₃ c hc
  · exact k₄ e₄ he₄ c hc

/-- The value of a valid notation is at most 3999. -/
theorem wellFormed_le {s : List Char} {v : Int} (h : WellFormed s v) : v ≤ 3999 := by
  obtain ⟨e₁, he₁, e₂, he₂, e₃, he₃, e₄, he₄, -, rfl⟩ := h
  have k₁ : ∀ e ∈ thousands_table, e.2 ≤ 3000 := by decide
  have k₂ : ∀ e ∈ hundreds_table, e.2 ≤ 900 := by decide
  have k₃ : ∀ e ∈ tens_table, e.2 ≤ 90 := by decide
  have k₄ : ∀ e ∈ ones_table, e.2 ≤ 9 := by decide
  have := k₁ e₁ he₁
  have := k₂ e₂ he₂
  have := k₃ e₃ he₃
  have := k₄ e₄ he₄
  omega

/-- The only valid notation of value 0 is the empty string. -/
theorem wellFormed_zero {s : List Char} (h : WellFormed s 0) : s = [] := by
  obtain ⟨e₁, he₁, e₂, he₂, e₃, he₃, e₄, he₄, rfl, hsum⟩ := h
  obtain ⟨hn₁, hn₂, hn₃, hn₄⟩ := table_nonneg
  have k₁ : ∀ e ∈ thousands_table, e.2 = 0 → e.1 = [] := by decide
  have k₂ : ∀ e ∈ hundreds_table, e.2 = 0 → e.1 = [] := by decide
  have k₃ : ∀ e ∈ tens_table, e.2 = 0 → e.1 = [] := by decide
  have k₄ : ∀ e ∈ ones_table, e.2 = 0 → e.1 = [] := by decide
  have := hn₁ e₁ he₁
  have := hn₂ e₂ he₂
  have := hn₃ e₃ he₃
  have := hn₄ e₄ he₄
  rw [k₁ e₁ he₁ (by omega), k₂ e₂ he₂ (by omega), k₃ e₃ he₃ (by omega), k₄ e₄ he₄ (by omega)]
  rfl

/-- The digits of a number below 4000 select entries of the four tables. -/
theorem int2roman_valid (n : Nat) (hn : n ≤ 3999) : WellFormed (int2roman n) n := by
  have k₁ : ∀ d < 4, ((["", "M", "MM", "MMM"].getD d "").toList, (1000 * d : Int))
      ∈ thousands_table := by decide
  have k₂ : ∀ d < 10,
      ((["", "C", "CC", "CCC", "CD", "D", "DC", "DCC", "DCCC", "CM"].getD d "").toList,
        (100 * d : Int)) ∈ hundreds_table := by decide
  have k₃ : ∀ d < 10,
      ((["", "X", "XX", "XXX", "XL", "L", "LX", "LXX", "LXXX", "XC"].getD d "").toList,
        (10 * d : Int)) ∈ tens_table := by decide
  have k₄ : ∀ d < 10,
      ((["", "I", "II", "III", "IV", "V", "VI", "VII", "VIII", "IX"].getD d "").toList,
        (d : Int)) ∈ ones_table := by decide
  refine ⟨_, k₁ (n / 1000) (by omega), _, k₂ (n / 100 % 10) (by omega),
    _, k₃ (n / 10 % 10) (by omega), _, k₄ (n % 10) (by omega), rfl, ?_⟩
  simp only
  omega

end Roman

namespace Roman

/-- C13. `roman2int` returns a value `v >= 0` exactly when the string is a
notation of the thousands (nothing, M, MM, MMM), then one of the hundreds, one
of the tens and one of the ones (IIII and IV both standing for 4) and `v` is
the sum of the four values; for every other string it returns -1.  VV and VL
give -1, MCD gives 1400. -/
theorem roman2int_iff_well_formed :
    (∀ (s : List Char) (v : Int), (roman2int s = some v ∧ 0 ≤ v) ↔
      ∃ t ∈ thousands_table, ∃ h ∈ hundreds_table, ∃ x ∈ tens_table,
        ∃ o ∈ ones_table, s = t.1 ++ h.1 ++ x.1 ++ o.1 ∧ v = t.2 + h.2 + x.2 + o.2) ∧
    (∀ s : List Char,
      (¬ ∃ t ∈ thousands_table, ∃ h ∈ hundreds_table, ∃ x ∈ tens_table,
        ∃ o ∈ ones_table, s = t.1 ++ h.1 ++ x.1 ++ o.1) → roman2int s = some (-1)) ∧
    roman2int "VV".toList = some (-1) ∧ roman2int "VL".toList = some (-1) ∧
    roman2int "MCD".toList = some 1400 := by
  refine ⟨fun s v => ⟨fun ⟨hs, hv⟩ => ?_, fun h => ⟨roman2int_complete h, wellFormed_nonneg h⟩⟩,
    fun s hno => ?_, by decide, by decide, by decide⟩
  · obtain ⟨w, hw, hcase⟩ := roman2int_sound s
    rw [hs] at hw
    obtain rfl := Option.some.inj hw
    rcases hcase with rfl | hvalid
    · omega
    · exact hvalid
  · obtain ⟨w, hw, hcase⟩ := roman2int_sound s
    rcases hcase with rfl | ⟨t, ht, h, hh, x, hx, o, ho, hs, -⟩
    · exact hw
    · exact absurd ⟨t, ht, h, hh, x, hx, o, ho, hs⟩ hno

/-- C14. For every `n` from 1 to 3999, `roman2int` applied to the standard
subtractive Roman numeral of `n` returns `n`; MCMLXXXIV, XL, I and V are the
numerals of 1984, 40, 1 and 5 and give these values. -/
theorem roman2int_int2roman :
    (∀ n : Nat, 1 ≤ n → n ≤ 3999 → roman2int (int2roman n) = some (n : Int)) ∧
    int2roman 1984 = "MCMLXXXIV".toList ∧ roman2int "MCMLXXXIV".toList = some 1984 ∧
    int2roman 40 = "XL".toList ∧ roman2int "XL".toList = some 40 ∧
    int2roman 1 = "I".toList ∧ roman2int "I".toList = some 1 ∧
    int2roman 5 = "V".toList ∧ roman2int "V".toList = some 5 ∧
    int2roman 3999 = "MMMCMXCIX".toList :=
  ⟨fun n _ hn => roman2int_complete (int2roman_valid n hn), by decide, by decide, by decide,
    by decide, by decide, by decide, by decide, by decide, by decide⟩

/-- C14 at 1984: the numeral MCMLXXXIV is read back as 1984. -/
theorem roman2int_int2roman_witness :
    1 ≤ 1984 ∧ 1984 ≤ 3999 ∧ roman2int (int2roman 1984) = some 1984 :=
  ⟨by decide, by decide, roman2int_int2roman.1 1984 (by decide) (by decide)⟩

/-- C15. A string with a character that is not one of M, D, C, L, X, V, I, at
whatever position, gives -1; so do foo, 0, MCMLX_XXIV, MCMLXXHVII and
MCM@VIII. -/
theorem roman2int_invalid_character :
    (∀ s : List Char, (∃ c ∈ s, c ∉ ['M', 'D', 'C', 'L', 'X', 'V', 'I']) →
      roman2int s = some (-1)) ∧
    roman2int "foo".toList = some (-1) ∧ roman2int "0".toList = some (-1) ∧
    roman2int "MCMLX_XXIV".toList = some (-1) ∧ roman2int "MCMLXXHVII".toList = some (-1) ∧
    roman2int "MCM@VIII".toList = some (-1) := by
  refine ⟨fun s ⟨c, hc, hbad⟩ => ?_, by decide, by decide, by decide, by decide, by decide⟩
  obtain ⟨w, hw, hcase⟩ := roman2int_sound s
  rcases hcase with rfl | hvalid
  · exact hw
  · exact absurd (wellFormed_numerals hvalid c hc) hbad

/-- C15 at the string `MCM@VIII`, whose fourth character is not a numeral. -/
theorem roman2int_invalid_character_witness :
    roman2int "MCM@VIII".toList = some (-1) :=
  roman2int_invalid_character.1 "MCM@VIII".toList ⟨'@', by decide, by decide⟩

/-- C16 on the code: MMMI gives 3001 and MMMCMXCIX gives 3999, above the
maximum of 3000 that the header and the comment at the thousands tree state;
only the thousands are limited to MMM, and no string gives more than 3999. -/
theorem roman2int_exceeds_3000 :
    roman2int "MMMI".toList = some 3001 ∧ roman2int "MMMCMXCIX".toList = some 3999 ∧
    ∀ (s : List Char) (v : Int), roman2int s = some v → v ≤ 3999 := by
  refine ⟨by decide, by decide, fun s v hs => ?_⟩
  obtain ⟨w, hw, hcase⟩ := roman2int_sound s
  rw [hs] at hw
  obtain rfl := Option.some.inj hw
  rcases hcase with rfl | hvalid
  · omega
  · exact wellFormed_le hvalid

/-- C17. IIII and IV both give 4, and after every string `p` that `roman2int`
accepts and that holds neither I nor V, IIII and IV both add 4 to the value of
`p`. -/
theorem roman2int_iiii :
    roman2int "IIII".toList = some 4 ∧ roman2int "IV".toList = some 4 ∧
    ∀ (p : List Char) (v : Int), roman2int p = some v → 0 ≤ v →
      (∀ c ∈ p, c ≠ 'I' ∧ c ≠ 'V') →
      roman2int (p ++ "IIII".toList) = some (v + 4) ∧
      roman2int (p ++ "IV".toList) = some (v + 4) := by
  refine ⟨by decide, by decide, fun p v hp hv hfree => ?_⟩
  obtain ⟨w, hw, hcase⟩ := roman2int_sound p
  rw [hp] at hw
  obtain rfl := Option.some.inj hw
  rcases hcase with rfl | ⟨t, ht, h, hh, x, hx, o, ho, rfl, rfl⟩
  · omega
  have hones : ∀ o ∈ ones_table, (∀ c ∈ o.1, c ≠ 'I' ∧ c ≠ 'V') → o = ([], 0) := by decide
  have ho' := hones o ho fun c hc => hfree c (List.mem_append_right _ hc)
  subst ho'
  constructor
  · exact roman2int_complete
      ⟨t, ht, h, hh, x, hx, ("IIII".toList, 4), by decide, by simp, by simp⟩
  · exact roman2int_complete
      ⟨t, ht, h, hh, x, hx, ("IV".toList, 4), by decide, by simp, by simp⟩

/-- C17 after MCD, which gives 1400: MCDIIII and MCDIV both give 1404. -/
theorem roman2int_iiii_witness :
    roman2int "MCD".toList = some 1400 ∧
    roman2int ("MCD".toList ++ "IIII".toList) = some (1400 + 4) ∧
    roman2int ("MCD".toList ++ "IV".toList) = some (1400 + 4) :=
  ⟨by decide, roman2int_iiii.2.2 "MCD".toList 1400 (by decide) (by decide) (by decide)⟩

/-- C18. `roman2int` returns 0 exactly for the empty string, and every other
string gives -1 or a value of at least 1. -/
theorem roman2int_zero_iff_empty :
    (∀ s : List Char, roman2int s = some 0 ↔ s = []) ∧
    (∀ s : List Char, s ≠ [] →
      roman2int s = some (-1) ∨ ∃ v, roman2int s = some v ∧ 1 ≤ v) := by
  have zero : ∀ s : List Char, roman2int s = some 0 → s = [] := by
    intro s hs
    obtain ⟨w, hw, hcase⟩ := roman2int_sound s
    rw [hs] at hw
    obtain rfl := Option.some.inj hw
    rcases hcase with h | hvalid
    · omega
    · exact wellFormed_zero hvalid
  refine ⟨fun s => ⟨zero s, fun h => by subst h; decide⟩, fun s hne => ?_⟩
  obtain ⟨w, hw, hcase⟩ := roman2int_sound s
  rcases hcase with rfl | hvalid
  · exact Or.inl hw
  · refine Or.inr ⟨w, hw, ?_⟩
    have hnonneg := wellFormed_nonneg hvalid
    by_contra hlt
    have hw0 : w = 0 := by omega
    subst hw0
    exact hne (zero s hw)

/-- C18 at the string I: it is not empty and gives 1, not 0. -/
theorem roman2int_zero_iff_empty_witness :
    roman2int "I".toList = some (-1) ∨ ∃ v, roman2int "I".toList = some v ∧ 1 ≤ v :=
  roman2int_zero_iff_empty.2 "I".toList (by decide)

end Roman
